import Mathlib

/-!
# BOUT++ options file reader (`src/sys/options/options_ini.cpp`)

A shallow embedding of `OptionINI`: the string helpers (`trim`, `trimRight`,
`trimLeft`, `trimComments`), the line reader `getNextLine`, the key/value
parser `parse` and the main loop `read`.

Conventions of the embedding.

* A C++ `std::string` is a `List Char`; positions are `Nat`, and
  `string::npos` is `none`.
* A thrown `BoutException` is the `error` case of `Except`; the exception
  value records which `throw` statement produced it and the arguments handed
  to its format string.
* The `Options` tree is a collaborator whose code is not part of this file
  (`getSection` and `set` live in `options.cpp`).  The loop is therefore
  written over an arbitrary `Collaborator`, and `traceAPI` is the instance
  that merely records every call with its receiver.
* The input stream is the list of the strings that successive calls of
  `getline` deliver until `eof()` is set.
-/

namespace OptionINI

/-- A `std::string`. -/
abbrev Str := List Char

/-! ## `std::string` member functions used by the source -/

/-- `s.find_first_of(c)`: position of the first character of `s` that occurs
in `c`, or `none` for `npos`. -/
def find_first_of : Str → Str → Option Nat
  | [], _ => none
  | x :: xs, c => if c.contains x then some 0 else (find_first_of xs c).map (· + 1)

/-- `s.find_last_of(c)`: position of the last character of `s` that occurs
in `c`. -/
def find_last_of : Str → Str → Option Nat
  | [], _ => none
  | x :: xs, c =>
    match find_last_of xs c with
    | some i => some (i + 1)
    | none => if c.contains x then some 0 else none

/-- `s.find_first_not_of(c)`: position of the first character of `s` that
does not occur in `c`. -/
def find_first_not_of : Str → Str → Option Nat
  | [], _ => none
  | x :: xs, c => if c.contains x then (find_first_not_of xs c).map (· + 1) else some 0

/-- `s.find_last_not_of(c)`: position of the last character of `s` that does
not occur in `c`. -/
def find_last_not_of : Str → Str → Option Nat
  | [], _ => none
  | x :: xs, c =>
    match find_last_not_of xs c with
    | some i => some (i + 1)
    | none => if c.contains x then none else some 0

/-- `s.substr(pos, n)`; `n = none` is the defaulted count (`npos`), meaning
"to the end".  Every call in the source has `pos ≤ s.size()`, so the
`out_of_range` exception of `substr` cannot occur there. -/
def substr (s : Str) (pos : Nat) (n : Option Nat) : Str :=
  match n with
  | some k => (s.drop pos).take k
  | none => s.drop pos

/-! ## Private helpers of `OptionINI` -/

/-- `OptionINI::trim(s, c)`, returning the new value of `s`.  The difference
`endpos - startpos` never wraps, because the first position outside `c` cannot
lie after the last one. -/
def trim (s c : Str) : Str :=
  let startpos := find_first_not_of s c
  let endpos := find_last_not_of s c
  match startpos, endpos with
  | some startpos, some endpos => substr s startpos (some (endpos - startpos + 1))
  | _, _ => []

/-- `OptionINI::trimRight(s, c)`. -/
def trimRight (s c : Str) : Str :=
  match find_first_of s c with
  | some startpos => substr s 0 (some startpos)
  | none => s

/-- `OptionINI::trimLeft(s, c)`. -/
def trimLeft (s c : Str) : Str :=
  match find_last_of s c with
  | some endpos => substr s endpos none
  | none => s

/-- The string `"#;"` of comment characters. -/
def commentChars : Str := ['#', ';']

/-- `OptionINI::trimComments(s)`. -/
def trimComments (s : Str) : Str := trimRight s commentChars

/-- Modelled from the spec: the default value of the second argument of
`trim`, declared in `options_ini.h`, which is not among the sources; the spec
gives it as space, tab, CR, LF. -/
def defaultTrimChars : Str := [' ', '\t', '\r', '\n']

/-- The double quote character. -/
def dquote : Char := Char.ofNat 34

/-- Modelled from the spec: the scan of `lowercasequote`, with the
"inside-quote" flag as first argument.  The flag is toggled on a double quote,
characters outside quotes are lowercased and characters inside are kept. -/
def caseFoldUnquoted : Bool → Str → Str
  | _, [] => []
  | inside, x :: xs =>
    if x = dquote then x :: caseFoldUnquoted (!inside) xs
    else if inside then x :: caseFoldUnquoted inside xs
    else x.toLower :: caseFoldUnquoted inside xs

/-- Modelled from the spec: `lowercasequote` of `utils.h`, which is not among
the sources.  The spec describes it as a left to right scan that toggles an
"inside-quote" flag on each unescaped double quote, lowercasing while the flag
is false.  The spec's grammar has no escape character, so every double quote is
unescaped. -/
def lowercasequote (s : Str) : Str := caseFoldUnquoted false s

/-- `OptionINI::getNextLine`, as a function of the string that `getline`
delivered. -/
def getNextLine (line : Str) : Str :=
  let line := trimComments line
  let line := trim line defaultTrimChars
  lowercasequote line

/-- The exceptions thrown by `read` and `parse`, each with the arguments
passed to its format string. -/
inductive BoutException where
  /-- `"\t'%s': Missing ']'\n\tLine: %s"` with `filename` and `buffer`. -/
  | missingBracket (filename buffer : Str)
  /-- `"\t'%s': Missing section name\n\tLine: %s"` with `filename` and `buffer`. -/
  | missingSectionName (filename buffer : Str)
  /-- `"\tEmpty key or value\n\tLine: %s"` with `buffer`. -/
  | emptyKeyOrValue (buffer : Str)
  deriving DecidableEq, Repr

/-- The string `" \t\r\n\""` that `parse` trims from key and value. -/
def parseTrimChars : Str := [' ', '\t', '\r', '\n', dquote]

/-- `OptionINI::parse(buffer, key, value)`: the pair `(key, value)` it
assigns, or the exception it throws.  The source also computes
`endpos = buffer.find_last_of("=")` and never uses it. -/
def parse (buffer : Str) : Except BoutException (Str × Str) :=
  let startpos := find_first_of buffer ['=']
  match startpos with
  | none => .ok (buffer, "TRUE".toList)
  | some startpos =>
    let key := substr buffer 0 (some startpos)
    let value := substr buffer (startpos + 1) none
    let key := trim key parseTrimChars
    let value := trim value parseTrimChars
    if key.isEmpty || value.isEmpty then .error (.emptyKeyOrValue buffer)
    else .ok (key, value)

/-! ## The `Options` collaborator -/

/-- The two member functions of `Options` that `read` calls.  `Store` is the
state of the whole options tree, `Ref` the type of `Options*` handles.
`getSection st o name` is `o->getSection(name)` and yields the new state and
the returned handle; `set st o key value source` is
`o->set(key, value, source)`. -/
structure Collaborator (Store Ref : Type) where
  getSection : Store → Ref → Str → Store × Ref
  set : Store → Ref → Str → Str → Str → Store

/-- A handle in the recording instance: the root passed by the caller, or the
result of `getSection(name)` called on `parent`. -/
inductive Handle where
  | root
  | child (parent : Handle) (name : Str)
  deriving DecidableEq, Repr

/-- One recorded call on the collaborator. -/
inductive Call where
  | getSection (receiver : Handle) (name : Str)
  | set (receiver : Handle) (key value source : Str)
  deriving DecidableEq, Repr

/-- The recording instance: the store is the list of calls made so far, in
order, and `getSection` on `o` returns the handle `child o name`. -/
def traceAPI : Collaborator (List Call) Handle where
  getSection := fun log o name => (log ++ [Call.getSection o name], Handle.child o name)
  set := fun log o key value source => log ++ [Call.set o key value source]

/-! ## `OptionINI::read` -/

/-- The string `"["`. -/
def openBracket : Str := ['[']

/-- The string `"]"`. -/
def closeBracket : Str := [']']

/-- The string `"[]"`. -/
def brackets : Str := ['[', ']']

/-- The statement `if(!buffer.empty()) ...` in the loop of `read`, for the
line `buffer` returned by `getNextLine`.  The state is the store together with
the local variable `section`; `options` is the root handle given by the
caller.  Each `throw` precedes every call on the collaborator in its
iteration. -/
def readBuffer {Store Ref : Type} (api : Collaborator Store Ref) (options : Ref)
    (filename : Str) (st : Store × Ref) (buffer : Str) :
    Except BoutException (Store × Ref) :=
  if !buffer.isEmpty then
    let startpos := find_first_of buffer openBracket
    let endpos := find_last_of buffer closeBracket
    if startpos.isSome then
      if endpos.isNone then .error (.missingBracket filename buffer)
      else
        let buffer := trim buffer brackets
        if buffer.isEmpty then .error (.missingSectionName filename buffer)
        else .ok (api.getSection st.1 options buffer)
    else
      match parse buffer with
      | .error e => .error e
      | .ok (key, value) => .ok (api.set st.1 st.2 key value filename, st.2)
  else .ok st

/-- One iteration of the `do ... while` loop of `read` on the string that
`getline` delivered. -/
def readLine {Store Ref : Type} (api : Collaborator Store Ref) (options : Ref)
    (filename : Str) (st : Store × Ref) (line : Str) :
    Except BoutException (Store × Ref) :=
  readBuffer api options filename st (getNextLine line)

/-- The loop of `read` from the state `st` over the remaining lines of the
stream.  The result is the state when the loop was left and the exception
that left it, if any. -/
def readFrom {Store Ref : Type} (api : Collaborator Store Ref) (options : Ref)
    (filename : Str) : Store × Ref → List Str → (Store × Ref) × Option BoutException
  | st, [] => (st, none)
  | st, line :: rest =>
    match readLine api options filename st line with
    | .error e => (st, some e)
    | .ok st' => readFrom api options filename st' rest

/-- `OptionINI::read(options, filename)` on a stream that was opened
successfully and delivers `lines`; `section` starts as `options`. -/
def read {Store Ref : Type} (api : Collaborator Store Ref) (store : Store)
    (options : Ref) (filename : Str) (lines : List Str) :
    (Store × Ref) × Option BoutException :=
  readFrom api options filename (store, options) lines


/-! ## Vocabulary of the specification -/

/-- The string `s` without its longest prefix and without its longest suffix
of characters that occur in `c`. -/
def stripSet (c s : Str) : Str :=
  ((s.dropWhile c.contains).reverse.dropWhile c.contains).reverse

/-- The text before the first occurrence of `ch` (all of `s` if there is
none). -/
def beforeFirst (ch : Char) (s : Str) : Str := s.takeWhile (fun x => x != ch)

/-- The text after the first occurrence of `ch`. -/
def afterFirst (ch : Char) (s : Str) : Str := (s.dropWhile (fun x => x != ch)).drop 1

/-- The line cut just before its first `#` or `;`, whichever comes first. -/
def truncateAtComment (s : Str) : Str := s.takeWhile (fun x => x != '#' && x != ';')

/-- The section in force after the lines `pre`, in the words of the spec: what
`getSection(name)` returns on the root for the most recent section header,
where a header is a normalized line containing `[` and `name` is the header
without its enclosing brackets; the root itself when no header precedes. -/
def sectionAfter (pre : List Str) : Handle :=
  match (pre.map getNextLine).reverse.find? (fun b => b.contains '[') with
  | some header => Handle.child Handle.root (stripSet brackets header)
  | none => Handle.root

/-- The calls the spec expects for `line` when the lines `pre` precede it:
nothing for a blank line, `getSection` on the root for a header, and for any
other line one `set` of its parsed key and value, with the file name as
origin, on the section in force after `pre`. -/
def expectedCallsOf (filename : Str) (pre : List Str) (line : Str) : List Call :=
  if getNextLine line = [] then []
  else if '[' ∈ getNextLine line then
    [Call.getSection Handle.root (stripSet brackets (getNextLine line))]
  else
    match parse (getNextLine line) with
    | .ok (key, value) => [Call.set (sectionAfter pre) key value filename]
    | .error _ => []

/-- The calls the spec expects for the lines `rest` that follow the lines
`pre`, in input order. -/
def expectedCalls (filename : Str) : List Str → List Str → List Call
  | _, [] => []
  | pre, line :: rest =>
    expectedCallsOf filename pre line ++ expectedCalls filename (pre ++ [line]) rest

/-- The single quote character. -/
def squote : Char := Char.ofNat 39

/-- The line `K = "V"`: the key text, a blank, `=`, a blank, and the value
text between double quotes. -/
def quotedLine (K V : Str) : Str := K ++ [' ', '=', ' ', dquote] ++ V ++ [dquote]

/-- Key, value and origin of a recorded `set` call; nothing for a
`getSection` call. -/
def Call.entryOf : Call → Option (Str × Str × Str)
  | .set _ key value source => some (key, value, source)
  | .getSection _ _ => none

/-- The normalized lines of the input that are not blank and contain no `[`,
in input order. -/
def entryLines (lines : List Str) : List Str :=
  (lines.map getNextLine).filter (fun b => !b.isEmpty && !b.contains '[')

/-- The line has a `[` with no `]` anywhere after it. -/
def unmatchedOpen : Str → Bool
  | [] => false
  | x :: xs => (x == '[' && !xs.contains ']') || unmatchedOpen xs

/-! ## Facts about the `std::string` searches -/

theorem find_first_of_none_iff (s c : Str) :
    find_first_of s c = none ↔ ∀ x ∈ s, x ∉ c := by
  induction s with
  | nil => simp [find_first_of]
  | cons x xs ih =>
    by_cases hx : x ∈ c
    · simp [find_first_of, hx]
    · simp [find_first_of, hx, ih]

theorem find_first_of_some (s c : Str) (i : Nat) (h : find_first_of s c = some i) :
    s.take i = s.takeWhile (fun x => !c.contains x) ∧
    s.drop i = s.dropWhile (fun x => !c.contains x) ∧ i < s.length := by
  induction s generalizing i with
  | nil => simp [find_first_of] at h
  | cons x xs ih =>
    by_cases hx : x ∈ c
    · simp [find_first_of, hx] at h
      subst h
      simp [hx]
    · simp [find_first_of, hx] at h
      obtain ⟨j, hj, rfl⟩ := h
      obtain ⟨h1, h2, h3⟩ := ih j hj
      simp [hx, h1, h2, h3]

theorem find_last_of_none_iff (s c : Str) :
    find_last_of s c = none ↔ ∀ x ∈ s, x ∉ c := by
  induction s with
  | nil => simp [find_last_of]
  | cons x xs ih =>
    cases hl : find_last_of xs c with
    | some j =>
      have : ¬ ∀ x ∈ xs, x ∉ c := fun hall => by simp [ih.mpr hall] at hl
      simp only [find_last_of, hl]
      constructor
      · intro h; cases h
      · intro h; exact absurd (fun y hy => h y (List.mem_cons_of_mem _ hy)) this
    | none =>
      have hall := ih.mp hl
      by_cases hx : x ∈ c
      · simp [find_last_of, hl, hx]
      · simp [find_last_of, hl, hx]; exact hall

theorem find_first_not_of_none_iff (s c : Str) :
    find_first_not_of s c = none ↔ ∀ x ∈ s, x ∈ c := by
  induction s with
  | nil => simp [find_first_not_of]
  | cons x xs ih =>
    by_cases hx : x ∈ c
    · simp [find_first_not_of, hx, ih]
    · simp [find_first_not_of, hx]

theorem find_first_not_of_some (s c : Str) (i : Nat) (h : find_first_not_of s c = some i) :
    s.drop i = s.dropWhile c.contains ∧ i < s.length := by
  induction s generalizing i with
  | nil => simp [find_first_not_of] at h
  | cons x xs ih =>
    by_cases hx : x ∈ c
    · simp [find_first_not_of, hx] at h
      obtain ⟨j, hj, rfl⟩ := h
      obtain ⟨h1, h2⟩ := ih j hj
      simp [hx, h1, h2]
    · simp [find_first_not_of, hx] at h
      subst h
      simp [hx]

theorem find_last_not_of_none_iff (s c : Str) :
    find_last_not_of s c = none ↔ ∀ x ∈ s, x ∈ c := by
  induction s with
  | nil => simp [find_last_not_of]
  | cons x xs ih =>
    cases hl : find_last_not_of xs c with
    | some j =>
      have : ¬ ∀ x ∈ xs, x ∈ c := fun hall => by simp [ih.mpr hall] at hl
      simp only [find_last_not_of, hl]
      constructor
      · intro h; cases h
      · intro h; exact absurd (fun y hy => h y (List.mem_cons_of_mem _ hy)) this
    | none =>
      have hall := ih.mp hl
      by_cases hx : x ∈ c
      · simp [find_last_not_of, hl, hx]; exact hall
      · simp [find_last_not_of, hl, hx]

theorem rdropWhile_cons (p : Char → Bool) (x : Char) (xs : Str) :
    List.rdropWhile p (x :: xs) =
      if List.rdropWhile p xs = [] then (if p x then [] else [x])
      else x :: List.rdropWhile p xs := by
  unfold List.rdropWhile
  rw [List.reverse_cons, List.dropWhile_append]
  by_cases h : List.dropWhile p xs.reverse = []
  · by_cases hx : p x <;> simp [h, hx]
  · simp [h]

theorem find_last_not_of_some (s c : Str) (j : Nat) (h : find_last_not_of s c = some j) :
    s.take (j + 1) = List.rdropWhile c.contains s ∧ j < s.length := by
  induction s generalizing j with
  | nil => simp [find_last_not_of] at h
  | cons x xs ih =>
    cases hl : find_last_not_of xs c with
    | some k =>
      simp only [find_last_not_of, hl, Option.some.injEq] at h
      subst h
      obtain ⟨h1, h2⟩ := ih k hl
      have hne : List.rdropWhile c.contains xs ≠ [] := by
        rw [← h1]
        cases xs with
        | nil => simp at h2
        | cons y ys => simp
      rw [rdropWhile_cons, if_neg hne, ← h1]
      simp [h2]
    | none =>
      have hall := (find_last_not_of_none_iff xs c).mp hl
      have hnil : List.rdropWhile c.contains xs = [] := by
        rw [List.rdropWhile_eq_nil_iff]
        intro y hy
        simpa using hall y hy
      by_cases hx : x ∈ c
      · simp [find_last_not_of, hl, hx] at h
      · simp [find_last_not_of, hl, hx] at h
        subst h
        rw [rdropWhile_cons, if_pos hnil]
        simp [hx]

theorem find_last_not_of_drop (s c : Str) (i j : Nat)
    (hi : find_first_not_of s c = some i) (hj : find_last_not_of s c = some j) :
    find_last_not_of (s.drop i) c = some (j - i) ∧ i ≤ j := by
  induction s generalizing i j with
  | nil => simp [find_first_not_of] at hi
  | cons x xs ih =>
    by_cases hx : x ∈ c
    · simp [find_first_not_of, hx] at hi
      obtain ⟨i', hi', rfl⟩ := hi
      cases hl : find_last_not_of xs c with
      | some k =>
        simp only [find_last_not_of, hl, Option.some.injEq] at hj
        subst hj
        obtain ⟨h1, h2⟩ := ih i' k hi' hl
        simp [h1, h2]
      | none =>
        simp [find_last_not_of, hl, hx] at hj
    · simp [find_first_not_of, hx] at hi
      subst hi
      simp [hj]

/-- The source's `trim` removes exactly the longest prefix and the longest
suffix of characters of `c`. -/
theorem trim_eq_stripSet (s c : Str) : trim s c = stripSet c s := by
  have hstrip : stripSet c s = List.rdropWhile c.contains (s.dropWhile c.contains) := rfl
  rw [hstrip]
  unfold trim
  cases hi : find_first_not_of s c with
  | none =>
    have hall := (find_first_not_of_none_iff s c).mp hi
    have : s.dropWhile c.contains = [] := by
      rw [List.dropWhile_eq_nil_iff]
      intro y hy
      simpa using hall y hy
    simp [this]
  | some i =>
    cases hj : find_last_not_of s c with
    | none =>
      have hall := (find_last_not_of_none_iff s c).mp hj
      have := (find_first_not_of_none_iff s c).mpr hall
      rw [hi] at this
      cases this
    | some j =>
      obtain ⟨hd, hle⟩ := find_last_not_of_drop s c i j hi hj
      obtain ⟨h1, _⟩ := find_last_not_of_some (s.drop i) c (j - i) hd
      obtain ⟨h2, _⟩ := find_first_not_of_some s c i hi
      simp only [substr]
      rw [← h2, ← h1]

theorem stripSet_eq_nil_iff (c s : Str) : stripSet c s = [] ↔ ∀ x ∈ s, x ∈ c := by
  have hstrip : stripSet c s = List.rdropWhile c.contains (s.dropWhile c.contains) := rfl
  rw [hstrip, List.rdropWhile_eq_nil_iff]
  constructor
  · intro h
    have hnil : s.dropWhile c.contains = [] := by
      cases hd : s.dropWhile c.contains with
      | nil => rfl
      | cons y ys =>
        have hy : c.contains y = true := h y (by rw [hd]; simp)
        have hnot := List.head?_dropWhile_not c.contains s
        rw [hd] at hnot
        simp only [List.head?_cons] at hnot
        rw [hy] at hnot
        cases hnot
    rw [List.dropWhile_eq_nil_iff] at hnil
    intro x hx
    simpa using hnil x hx
  · intro h x hx
    have := h x ((List.dropWhile_subset _) hx)
    simpa using this

theorem stripSet_head_not_mem (c s : Str) (x : Char) (h : (stripSet c s).head? = some x) :
    x ∉ c := by
  have hstrip : stripSet c s = List.rdropWhile c.contains (s.dropWhile c.contains) := rfl
  rw [hstrip] at h
  obtain ⟨t, ht⟩ := List.rdropWhile_prefix c.contains (l := s.dropWhile c.contains)
  cases hr : List.rdropWhile c.contains (s.dropWhile c.contains) with
  | nil => simp [hr] at h
  | cons y ys =>
    rw [hr] at h ht
    simp only [List.head?_cons, Option.some.injEq] at h
    subst h
    have hnot := List.head?_dropWhile_not c.contains s
    rw [← ht] at hnot
    simp only [List.cons_append, List.head?_cons] at hnot
    simpa using hnot

theorem stripSet_getLast_not_mem (c s : Str) (x : Char)
    (h : (stripSet c s).getLast? = some x) : x ∉ c := by
  have hstrip : stripSet c s = List.rdropWhile c.contains (s.dropWhile c.contains) := rfl
  rw [hstrip] at h
  have hne : List.rdropWhile c.contains (s.dropWhile c.contains) ≠ [] := by
    intro hnil; simp [hnil] at h
  have hnot := List.rdropWhile_last_not c.contains (s.dropWhile c.contains) hne
  rw [List.getLast?_eq_getLast _ hne] at h
  simp only [Option.some.injEq] at h
  rw [h] at hnot
  simpa using hnot

/-! ## Facts about `parse` -/

theorem contains_eq_char (ch x : Char) : (!([ch] : Str).contains x) = (x != ch) := by
  by_cases h : x = ch <;> simp [h]

theorem parse_without_eq (buffer : Str) (h : '=' ∉ buffer) :
    parse buffer = .ok (buffer, ['T', 'R', 'U', 'E']) := by
  have hnone : find_first_of buffer ['='] = none := by
    rw [find_first_of_none_iff]
    intro x hx hmem
    simp at hmem
    subst hmem
    exact h hx
  simp [parse, hnone]

theorem parse_with_eq (buffer : Str) (h : '=' ∈ buffer) :
    parse buffer =
      if stripSet parseTrimChars (beforeFirst '=' buffer) = [] ∨
          stripSet parseTrimChars (afterFirst '=' buffer) = [] then
        .error (.emptyKeyOrValue buffer)
      else .ok (stripSet parseTrimChars (beforeFirst '=' buffer),
                stripSet parseTrimChars (afterFirst '=' buffer)) := by
  cases hf : find_first_of buffer ['='] with
  | none =>
    have := (find_first_of_none_iff buffer ['=']).mp hf '=' h
    simp at this
  | some i =>
    obtain ⟨h1, h2, _⟩ := find_first_of_some buffer ['='] i hf
    have hfun : (fun x => !([('=' : Char)] : Str).contains x) = (fun x => x != '=') :=
      funext (contains_eq_char '=')
    rw [hfun] at h1 h2
    have hk : substr buffer 0 (some i) = beforeFirst '=' buffer := by
      simp [substr, beforeFirst, h1]
    have hv : substr buffer (i + 1) none = afterFirst '=' buffer := by
      simp only [substr, afterFirst, ← h2, List.drop_drop]
    simp only [parse, hf, hk, hv, trim_eq_stripSet, List.isEmpty_iff, Bool.or_eq_true,
      decide_eq_true_eq]

/-! ## Facts about one iteration of `read` -/

theorem openBracket_found_iff (b : Str) :
    (find_first_of b openBracket).isSome = true ↔ '[' ∈ b := by
  cases h : find_first_of b openBracket with
  | none =>
    have := (find_first_of_none_iff b openBracket).mp h
    simp only [Option.isSome_none, Bool.false_eq_true, false_iff]
    intro hb
    exact this _ hb (by simp [openBracket])
  | some i =>
    simp only [Option.isSome_some, true_iff]
    by_contra hb
    have : find_first_of b openBracket = none := by
      rw [find_first_of_none_iff]
      intro x hx hmem
      simp [openBracket] at hmem
      subst hmem
      exact hb hx
    rw [h] at this
    cases this

theorem closeBracket_missing_iff (b : Str) :
    (find_last_of b closeBracket).isNone = true ↔ ']' ∉ b := by
  rw [Option.isNone_iff_eq_none, find_last_of_none_iff]
  constructor
  · intro h hb
    exact h _ hb (by simp [closeBracket])
  · intro h x hx hmem
    simp [closeBracket] at hmem
    subst hmem
    exact h hx

theorem readBuffer_nil {Store Ref : Type} (api : Collaborator Store Ref) (o : Ref)
    (f : Str) (st : Store × Ref) : readBuffer api o f st [] = .ok st := by
  simp [readBuffer]

theorem readBuffer_missingBracket {Store Ref : Type} (api : Collaborator Store Ref)
    (o : Ref) (f : Str) (st : Store × Ref) (b : Str) (h1 : '[' ∈ b) (h2 : ']' ∉ b) :
    readBuffer api o f st b = .error (.missingBracket f b) := by
  have hne : b.isEmpty = false := by cases b <;> simp at h1 ⊢
  simp [readBuffer, hne, (openBracket_found_iff b).mpr h1,
    (closeBracket_missing_iff b).mpr h2]

theorem readBuffer_missingSectionName {Store Ref : Type} (api : Collaborator Store Ref)
    (o : Ref) (f : Str) (st : Store × Ref) (b : Str) (h1 : '[' ∈ b) (h2 : ']' ∈ b)
    (h3 : stripSet brackets b = []) :
    readBuffer api o f st b = .error (.missingSectionName f []) := by
  have hne : b.isEmpty = false := by cases b <;> simp at h1 ⊢
  have hc : (find_last_of b closeBracket).isNone = false := by
    rw [Bool.eq_false_iff]
    intro h
    exact (closeBracket_missing_iff b).mp h h2
  simp [readBuffer, hne, (openBracket_found_iff b).mpr h1, hc, trim_eq_stripSet, h3]

theorem readBuffer_section {Store Ref : Type} (api : Collaborator Store Ref)
    (o : Ref) (f : Str) (st : Store × Ref) (b : Str) (h1 : '[' ∈ b) (h2 : ']' ∈ b)
    (h3 : stripSet brackets b ≠ []) :
    readBuffer api o f st b = .ok (api.getSection st.1 o (stripSet brackets b)) := by
  have hne : b.isEmpty = false := by cases b <;> simp at h1 ⊢
  have hc : (find_last_of b closeBracket).isNone = false := by
    rw [Bool.eq_false_iff]
    intro h
    exact (closeBracket_missing_iff b).mp h h2
  simp [readBuffer, hne, (openBracket_found_iff b).mpr h1, hc, trim_eq_stripSet, h3]

theorem readBuffer_entry {Store Ref : Type} (api : Collaborator Store Ref)
    (o : Ref) (f : Str) (st : Store × Ref) (b : Str) (h0 : b ≠ []) (h1 : '[' ∉ b) :
    readBuffer api o f st b =
      match parse b with
      | .error e => .error e
      | .ok (key, value) => .ok (api.set st.1 st.2 key value f, st.2) := by
  have hne : b.isEmpty = false := by cases b <;> simp at h0 ⊢
  have ho : (find_first_of b openBracket).isSome = false := by
    rw [Bool.eq_false_iff]
    intro h
    exact h1 ((openBracket_found_iff b).mp h)
  simp [readBuffer, hne, ho]

theorem parse_error_shape (b : Str) (e : BoutException) (h : parse b = .error e) :
    e = .emptyKeyOrValue b ∧ '=' ∈ b ∧
      (stripSet parseTrimChars (beforeFirst '=' b) = [] ∨
        stripSet parseTrimChars (afterFirst '=' b) = []) := by
  by_cases heq : '=' ∈ b
  · rw [parse_with_eq b heq] at h
    by_cases hc : stripSet parseTrimChars (beforeFirst '=' b) = [] ∨
        stripSet parseTrimChars (afterFirst '=' b) = []
    · rw [if_pos hc] at h
      injection h with h
      exact ⟨h.symm, heq, hc⟩
    · rw [if_neg hc] at h
      cases h
  · rw [parse_without_eq b heq] at h
    cases h

theorem readBuffer_error_cases {Store Ref : Type} (api : Collaborator Store Ref)
    (o : Ref) (f : Str) (st : Store × Ref) (b : Str) (e : BoutException)
    (h : readBuffer api o f st b = .error e) :
    ('[' ∈ b ∧ ']' ∉ b ∧ e = .missingBracket f b) ∨
    ('[' ∈ b ∧ ']' ∈ b ∧ stripSet brackets b = [] ∧ e = .missingSectionName f []) ∨
    ('[' ∉ b ∧ b ≠ [] ∧ parse b = .error e) := by
  by_cases h1 : '[' ∈ b
  · by_cases h2 : ']' ∈ b
    · by_cases h3 : stripSet brackets b = []
      · rw [readBuffer_missingSectionName api o f st b h1 h2 h3] at h
        injection h with h
        exact Or.inr (Or.inl ⟨h1, h2, h3, h.symm⟩)
      · rw [readBuffer_section api o f st b h1 h2 h3] at h
        cases h
    · rw [readBuffer_missingBracket api o f st b h1 h2] at h
      injection h with h
      exact Or.inl ⟨h1, h2, h.symm⟩
  · by_cases h0 : b = []
    · subst h0
      rw [readBuffer_nil] at h
      cases h
    · rw [readBuffer_entry api o f st b h0 h1] at h
      cases hp : parse b with
      | error e' =>
        rw [hp] at h
        injection h with h
        subst h
        exact Or.inr (Or.inr ⟨h1, h0, rfl⟩)
      | ok kv =>
        rw [hp] at h
        cases h

/-! ## The claims about `parse` -/

/-- Claim C2. On a buffer that contains `=`, `parse` takes as key the text
before the first `=` and as value all the text after the first `=`, each
stripped of its leading and trailing characters among space, tab, CR, LF and
double quote; when both stripped strings are non-empty it succeeds with exactly
that pair. -/
theorem parse_key_value (buffer : Str) (h : '=' ∈ buffer)
    (hk : stripSet parseTrimChars (beforeFirst '=' buffer) ≠ [])
    (hv : stripSet parseTrimChars (afterFirst '=' buffer) ≠ []) :
    parse buffer = .ok (stripSet parseTrimChars (beforeFirst '=' buffer),
      stripSet parseTrimChars (afterFirst '=' buffer)) := by
  rw [parse_with_eq buffer h, if_neg]
  rintro (h' | h')
  · exact hk h'
  · exact hv h'

/-- Witness of C2: `a=b` gives key `a` and value `b`, and in `k = "v=w" ` the
later `=` stays in the value while the enclosing quotes and blanks go. -/
theorem parse_key_value_witness :
    parse "a=b".toList = .ok ("a".toList, "b".toList) ∧
    parse [' ', 'k', ' ', '=', ' ', dquote, 'v', '=', 'w', dquote, ' '] =
      .ok (['k'], ['v', '=', 'w']) :=
  ⟨parse_key_value "a=b".toList (by decide) (by decide) (by decide),
   parse_key_value [' ', 'k', ' ', '=', ' ', dquote, 'v', '=', 'w', dquote, ' ']
     (by decide) (by decide) (by decide)⟩

/-- Claim C3. On a buffer without `=`, `parse` succeeds, the key is the whole
buffer unchanged and the value is the string `TRUE`. -/
theorem parse_flag (buffer : Str) (h : '=' ∉ buffer) :
    parse buffer = .ok (buffer, ['T', 'R', 'U', 'E']) :=
  parse_without_eq buffer h

/-- Witness of C3: `restart` gives key `restart` and value `TRUE`; a buffer
with quotes and blanks is kept as it is. -/
theorem parse_flag_witness :
    parse "restart".toList = .ok ("restart".toList, "TRUE".toList) ∧
    parse [' ', dquote, 'x', dquote] = .ok ([' ', dquote, 'x', dquote], "TRUE".toList) :=
  ⟨parse_flag "restart".toList (by decide), parse_flag [' ', dquote, 'x', dquote] (by decide)⟩

/-- Claim C4. `parse` throws exactly when the buffer contains `=` and the text
before the first `=` or the text after it consists only of characters among
space, tab, CR, LF and double quote (possibly none); the exception is then
"Empty key or value" with the buffer as its line, and `parse` throws nothing
else. -/
theorem parse_error_iff (buffer : Str) (e : BoutException) :
    parse buffer = .error e ↔
      (e = .emptyKeyOrValue buffer ∧ '=' ∈ buffer ∧
        ((∀ x ∈ beforeFirst '=' buffer, x ∈ parseTrimChars) ∨
          (∀ x ∈ afterFirst '=' buffer, x ∈ parseTrimChars))) := by
  constructor
  · intro h
    obtain ⟨h1, h2, h3⟩ := parse_error_shape buffer e h
    refine ⟨h1, h2, ?_⟩
    rcases h3 with h3 | h3
    · exact Or.inl ((stripSet_eq_nil_iff _ _).mp h3)
    · exact Or.inr ((stripSet_eq_nil_iff _ _).mp h3)
  · rintro ⟨rfl, h2, h3⟩
    rw [parse_with_eq buffer h2, if_pos]
    rcases h3 with h3 | h3
    · exact Or.inl ((stripSet_eq_nil_iff _ _).mpr h3)
    · exact Or.inr ((stripSet_eq_nil_iff _ _).mpr h3)

/-- Witness of C4: `a=`, `=b` and `a = ""` all fail with "Empty key or value". -/
theorem parse_error_iff_witness :
    parse "a=".toList = .error (.emptyKeyOrValue "a=".toList) ∧
    parse "=b".toList = .error (.emptyKeyOrValue "=b".toList) ∧
    parse ['a', ' ', '=', ' ', dquote, dquote] =
      .error (.emptyKeyOrValue ['a', ' ', '=', ' ', dquote, dquote]) :=
  ⟨(parse_error_iff _ _).mpr ⟨rfl, by decide, by decide⟩,
   (parse_error_iff _ _).mpr ⟨rfl, by decide, by decide⟩,
   (parse_error_iff _ _).mpr ⟨rfl, by decide, by decide⟩⟩

/-! ## The claims about section headers -/

/-- Claim C5. For a line returned by `getNextLine`, the iteration of `read`
throws the "Missing ]" exception exactly when the line contains `[` and
contains no `]` at all; the exception then carries the file name and the
line. -/
theorem read_missing_bracket_iff {Store Ref : Type} (api : Collaborator Store Ref)
    (options : Ref) (filename : Str) (st : Store × Ref) (buffer fn ln : Str) :
    readBuffer api options filename st buffer = .error (.missingBracket fn ln) ↔
      ('[' ∈ buffer ∧ ']' ∉ buffer ∧ fn = filename ∧ ln = buffer) := by
  constructor
  · intro h
    rcases readBuffer_error_cases api options filename st buffer _ h with
      ⟨h1, h2, h3⟩ | ⟨_, _, _, h3⟩ | ⟨_, _, h3⟩
    · injection h3 with h4 h5
      exact ⟨h1, h2, h4, h5⟩
    · cases h3
    · cases (parse_error_shape buffer _ h3).1
  · rintro ⟨h1, h2, rfl, rfl⟩
    exact readBuffer_missingBracket api options fn st ln h1 h2

/-- Witness of C5: the line `[foo` fails with "Missing ]", and nothing has been
called on the options tree. -/
theorem read_missing_bracket_iff_witness :
    readBuffer traceAPI Handle.root "f".toList ([], Handle.root) "[foo".toList =
      .error (.missingBracket "f".toList "[foo".toList) ∧
    read traceAPI [] Handle.root "f".toList ["[foo".toList] =
      (([], Handle.root), some (.missingBracket "f".toList "[foo".toList)) :=
  ⟨(read_missing_bracket_iff traceAPI Handle.root "f".toList ([], Handle.root)
      "[foo".toList "f".toList "[foo".toList).mpr ⟨by decide, by decide, rfl, rfl⟩, rfl⟩

/-- Claim C6. For a line that contains both `[` and `]`, the section name is
the line without its leading and trailing bracket characters.  The iteration
throws "Missing section name" exactly when that name is empty, which is when
the line consists of bracket characters only; otherwise the new current section
is what `getSection(name)` returns on the root, and the name is non-empty and
neither begins nor ends with a bracket. -/
theorem read_section_name {Store Ref : Type} (api : Collaborator Store Ref)
    (options : Ref) (filename : Str) (st : Store × Ref) (buffer : Str)
    (h1 : '[' ∈ buffer) (h2 : ']' ∈ buffer) :
    ((∃ fn ln, readBuffer api options filename st buffer =
        .error (.missingSectionName fn ln)) ↔ stripSet brackets buffer = []) ∧
    (stripSet brackets buffer = [] ↔ ∀ x ∈ buffer, x = '[' ∨ x = ']') ∧
    (stripSet brackets buffer ≠ [] →
      readBuffer api options filename st buffer =
        .ok (api.getSection st.1 options (stripSet brackets buffer)) ∧
      (∀ x, (stripSet brackets buffer).head? = some x → x ≠ '[' ∧ x ≠ ']') ∧
      (∀ x, (stripSet brackets buffer).getLast? = some x → x ≠ '[' ∧ x ≠ ']')) := by
  refine ⟨⟨?_, ?_⟩, ?_, ?_⟩
  · rintro ⟨fn, ln, h⟩
    by_contra h3
    rw [readBuffer_section api options filename st buffer h1 h2 h3] at h
    cases h
  · intro h3
    exact ⟨filename, [], readBuffer_missingSectionName api options filename st buffer h1 h2 h3⟩
  · rw [stripSet_eq_nil_iff]
    simp [brackets]
  · intro h3
    refine ⟨readBuffer_section api options filename st buffer h1 h2 h3, ?_, ?_⟩
    · intro x hx
      have := stripSet_head_not_mem brackets buffer x hx
      simpa [brackets] using this
    · intro x hx
      have := stripSet_getLast_not_mem brackets buffer x hx
      simpa [brackets] using this

/-- Witness of C6: `[foo]` makes `getSection("foo")` on the root the current
section, and `[[a]b]]` gives the name `a]b`. -/
theorem read_section_name_witness :
    readBuffer traceAPI Handle.root "f".toList ([], Handle.root) "[foo]".toList =
      .ok ([Call.getSection Handle.root "foo".toList],
        Handle.child Handle.root "foo".toList) ∧
    readBuffer traceAPI Handle.root "f".toList ([], Handle.root) "[[a]b]]".toList =
      .ok ([Call.getSection Handle.root "a]b".toList],
        Handle.child Handle.root "a]b".toList) :=
  ⟨((read_section_name traceAPI Handle.root "f".toList ([], Handle.root) "[foo]".toList
      (by decide) (by decide)).2.2 (by decide)).1,
   ((read_section_name traceAPI Handle.root "f".toList ([], Handle.root) "[[a]b]]".toList
      (by decide) (by decide)).2.2 (by decide)).1⟩

/-! ## Facts about the loop of `read` -/

theorem readFrom_append {Store Ref : Type} (api : Collaborator Store Ref) (o : Ref)
    (f : Str) (st : Store × Ref) (pre post : List Str) :
    readFrom api o f st (pre ++ post) =
      match readFrom api o f st pre with
      | (st', none) => readFrom api o f st' post
      | (st', some e) => (st', some e) := by
  induction pre generalizing st with
  | nil => simp [readFrom]
  | cons line rest ih =>
    simp only [List.cons_append, readFrom]
    cases readLine api o f st line with
    | error e => rfl
    | ok st' => exact ih st'

theorem trimComments_eq_truncate (s : Str) : trimComments s = truncateAtComment s := by
  have hfun : (fun x => !commentChars.contains x) = (fun x => x != '#' && x != ';') := by
    funext x
    by_cases h1 : x = '#'
    · subst h1; decide
    · by_cases h2 : x = ';'
      · subst h2; decide
      · simp [commentChars, List.contains, h1, h2]
  unfold trimComments trimRight truncateAtComment
  cases hf : find_first_of s commentChars with
  | none =>
    have hall := (find_first_of_none_iff s commentChars).mp hf
    rw [← hfun]
    symm
    rw [List.takeWhile_eq_self_iff]
    intro x hx
    simpa using hall x hx
  | some i =>
    obtain ⟨h1, _, _⟩ := find_first_of_some s commentChars i hf
    rw [← hfun, ← h1]
    simp [substr]

theorem getNextLine_truncate (raw : Str) :
    getNextLine (truncateAtComment raw) = getNextLine raw := by
  unfold getNextLine
  rw [trimComments_eq_truncate, trimComments_eq_truncate]
  unfold truncateAtComment
  rw [List.takeWhile_idem]

theorem getNextLine_blank (line : Str) (h : trim (trimComments line) defaultTrimChars = []) :
    getNextLine line = [] := by
  simp [getNextLine, h, lowercasequote, caseFoldUnquoted]

theorem sectionAfter_snoc (pre : List Str) (line : Str) :
    sectionAfter (pre ++ [line]) =
      if '[' ∈ getNextLine line then
        Handle.child Handle.root (stripSet brackets (getNextLine line))
      else sectionAfter pre := by
  unfold sectionAfter
  rw [List.map_append, List.reverse_append]
  simp only [List.map_cons, List.map_nil, List.reverse_cons, List.reverse_nil, List.nil_append,
    List.singleton_append, List.find?_cons]
  by_cases h : '[' ∈ getNextLine line
  · simp [h]
  · simp [h]

theorem expectedCalls_append (f : Str) (acc xs ys : List Str) :
    expectedCalls f acc (xs ++ ys) =
      expectedCalls f acc xs ++ expectedCalls f (acc ++ xs) ys := by
  induction xs generalizing acc with
  | nil => simp [expectedCalls]
  | cons x rest ih =>
    have hacc : acc ++ x :: rest = (acc ++ [x]) ++ rest := by simp
    show expectedCallsOf f acc x ++ expectedCalls f (acc ++ [x]) (rest ++ ys) =
      (expectedCallsOf f acc x ++ expectedCalls f (acc ++ [x]) rest) ++
        expectedCalls f (acc ++ x :: rest) ys
    rw [ih (acc ++ [x]), hacc]
    simp only [List.append_assoc]

theorem readLine_trace (f : Str) (log0 : List Call) (acc : List Str) (line : Str)
    (st' : List Call × Handle)
    (h : readLine traceAPI Handle.root f (log0, sectionAfter acc) line = .ok st') :
    st' = (log0 ++ expectedCallsOf f acc line, sectionAfter (acc ++ [line])) := by
  unfold readLine at h
  rw [sectionAfter_snoc]
  unfold expectedCallsOf
  by_cases h0 : getNextLine line = []
  · rw [h0] at h ⊢
    rw [readBuffer_nil] at h
    injection h with h
    simp [← h]
  · by_cases h1 : '[' ∈ getNextLine line
    · rw [if_neg h0, if_pos h1, if_pos h1]
      by_cases h2 : ']' ∈ getNextLine line
      · by_cases h3 : stripSet brackets (getNextLine line) = []
        · rw [readBuffer_missingSectionName _ _ _ _ _ h1 h2 h3] at h
          cases h
        · rw [readBuffer_section _ _ _ _ _ h1 h2 h3] at h
          injection h with h
          rw [← h]
          rfl
      · rw [readBuffer_missingBracket _ _ _ _ _ h1 h2] at h
        cases h
    · rw [if_neg h0, if_neg h1, if_neg h1]
      rw [readBuffer_entry _ _ _ _ _ h0 h1] at h
      cases hp : parse (getNextLine line) with
      | error e =>
        rw [hp] at h
        cases h
      | ok kv =>
        obtain ⟨key, value⟩ := kv
        rw [hp] at h
        injection h with h
        rw [← h]
        rfl

theorem readFrom_trace (f : Str) (rest : List Str) (log0 : List Call) (acc : List Str)
    (log : List Call) (sec : Handle)
    (h : readFrom traceAPI Handle.root f (log0, sectionAfter acc) rest = ((log, sec), none)) :
    log = log0 ++ expectedCalls f acc rest ∧ sec = sectionAfter (acc ++ rest) := by
  induction rest generalizing log0 acc with
  | nil =>
    simp only [readFrom, Prod.mk.injEq, and_true] at h
    obtain ⟨rfl, rfl⟩ := h
    simp [expectedCalls]
  | cons line rest ih =>
    simp only [readFrom] at h
    cases hl : readLine traceAPI Handle.root f (log0, sectionAfter acc) line with
    | error e =>
      rw [hl] at h
      simp at h
    | ok st' =>
      rw [hl] at h
      have hst := readLine_trace f log0 acc line st' hl
      rw [hst] at h
      obtain ⟨h1, h2⟩ := ih _ _ h
      refine ⟨?_, ?_⟩
      · rw [h1]
        simp [expectedCalls]
      · rw [h2]
        simp

/-! ## Facts about case folding and quoted values -/

theorem toLower_eq_self_or_ge (x : Char) : x.toLower = x ∨ 97 ≤ x.toLower.toNat := by
  unfold Char.toLower
  by_cases h : x.toNat ≥ 65 ∧ x.toNat ≤ 90
  · right
    simp only [h, and_self, if_true]
    obtain ⟨h1, h2⟩ := h
    generalize x.toNat = n at h1 h2
    interval_cases n <;> decide
  · left
    simp only [h, if_false]

theorem not_mem_map_toLower (K : Str) (y : Char) (hy : y.toNat < 97) (h : y ∉ K) :
    y ∉ K.map Char.toLower := by
  intro hmem
  rw [List.mem_map] at hmem
  obtain ⟨x, hx, hxy⟩ := hmem
  rcases toLower_eq_self_or_ge x with h1 | h1
  · rw [h1] at hxy
    subst hxy
    exact h hx
  · rw [hxy] at h1
    omega

theorem caseFold_outside (K rest : Str) (h : dquote ∉ K) :
    caseFoldUnquoted false (K ++ rest) =
      K.map Char.toLower ++ caseFoldUnquoted false rest := by
  induction K with
  | nil => rfl
  | cons x xs ih =>
    have hx : x ≠ dquote := fun hx => h (by simp [hx])
    have hxs : dquote ∉ xs := fun hxs => h (List.mem_cons_of_mem _ hxs)
    simp [caseFoldUnquoted, hx, ih hxs]

theorem caseFold_inside (V rest : Str) (h : dquote ∉ V) :
    caseFoldUnquoted true (V ++ rest) = V ++ caseFoldUnquoted true rest := by
  induction V with
  | nil => rfl
  | cons x xs ih =>
    have hx : x ≠ dquote := fun hx => h (by simp [hx])
    have hxs : dquote ∉ xs := fun hxs => h (List.mem_cons_of_mem _ hxs)
    simp [caseFoldUnquoted, hx, ih hxs]

theorem stripSet_sandwich (c a m z : Str) (ha : ∀ x ∈ a, x ∈ c) (hz : ∀ x ∈ z, x ∈ c)
    (hm : m ≠ []) (hh : ∀ x, m.head? = some x → x ∉ c) (hl : ∀ x, m.getLast? = some x → x ∉ c) :
    stripSet c (a ++ m ++ z) = m := by
  unfold stripSet
  have h1 : (a ++ m ++ z).dropWhile c.contains = m ++ z := by
    rw [List.append_assoc, List.dropWhile_append_of_pos (by simpa using ha)]
    cases m with
    | nil => exact absurd rfl hm
    | cons y ys =>
      have hy : ¬ c.contains y = true := by simpa using hh y rfl
      rw [List.cons_append, List.dropWhile_cons_of_neg hy]
  rw [h1, List.reverse_append,
    List.dropWhile_append_of_pos (by simpa using hz)]
  cases hr : m.reverse with
  | nil => exact absurd (by simpa using hr) hm
  | cons y ys =>
    have hlast : m.getLast? = some y := by
      rw [List.getLast?_eq_head?_reverse, hr]; rfl
    have hy : ¬ c.contains y = true := by simpa using hl y hlast
    rw [List.dropWhile_cons_of_neg hy, ← hr, List.reverse_reverse]

theorem stripSet_eq_self (c s : Str) (hs : s ≠ []) (hh : ∀ x, s.head? = some x → x ∉ c)
    (hl : ∀ x, s.getLast? = some x → x ∉ c) : stripSet c s = s := by
  have := stripSet_sandwich c [] s [] (by simp) (by simp) hs hh hl
  simpa using this

theorem getNextLine_quotedLine (K V : Str) (hK0 : K ≠ [])
    (hK1 : '#' ∉ K) (hK2 : ';' ∉ K) (hK3 : dquote ∉ K)
    (hKh : ∀ x, K.head? = some x → x ∉ defaultTrimChars)
    (hV1 : '#' ∉ V) (hV2 : ';' ∉ V) (hV3 : dquote ∉ V) :
    getNextLine (quotedLine K V) = quotedLine (K.map Char.toLower) V := by
  have hc : trimComments (quotedLine K V) = quotedLine K V := by
    rw [trimComments_eq_truncate]
    unfold truncateAtComment
    rw [List.takeWhile_eq_self_iff]
    intro x hx
    simp only [quotedLine, List.mem_append, List.mem_cons, List.mem_singleton,
      List.not_mem_nil, or_false] at hx
    have h1 : x ≠ '#' := by
      rintro rfl
      rcases hx with ((h | h | h | h | h) | h) | h
      · exact hK1 h
      all_goals first | exact hV1 h | exact absurd h (by decide)
    have h2 : x ≠ ';' := by
      rintro rfl
      rcases hx with ((h | h | h | h | h) | h) | h
      · exact hK2 h
      all_goals first | exact hV2 h | exact absurd h (by decide)
    simp [h1, h2]
  have ht : trim (quotedLine K V) defaultTrimChars = quotedLine K V := by
    rw [trim_eq_stripSet]
    apply stripSet_eq_self
    · simp [quotedLine]
    · intro x hx
      cases K with
      | nil => exact absurd rfl hK0
      | cons y ys =>
        simp only [quotedLine, List.cons_append, List.head?_cons, Option.some.injEq] at hx
        exact hKh x (by simp [hx])
    · intro x hx
      rw [quotedLine, List.getLast?_concat] at hx
      injection hx with hx
      subst hx
      decide
  show lowercasequote (trim (trimComments (quotedLine K V)) defaultTrimChars) = _
  rw [hc, ht]
  unfold lowercasequote
  have hq : quotedLine K V = K ++ ([' ', '=', ' ', dquote] ++ (V ++ [dquote])) := by
    simp [quotedLine]
  have hq' : quotedLine (K.map Char.toLower) V =
      K.map Char.toLower ++ ([' ', '=', ' ', dquote] ++ (V ++ [dquote])) := by
    simp [quotedLine]
  rw [hq, hq', caseFold_outside K _ hK3]
  have h4 : caseFoldUnquoted false ([' ', '=', ' ', dquote] ++ (V ++ [dquote])) =
      [' ', '=', ' ', dquote] ++ caseFoldUnquoted true (V ++ [dquote]) := by
    have e1 : (' ' : Char) ≠ dquote := by decide
    have e2 : ('=' : Char) ≠ dquote := by decide
    have e3 : (' ' : Char).toLower = ' ' := by decide
    have e4 : ('=' : Char).toLower = '=' := by decide
    simp [caseFoldUnquoted, e1, e2, e3, e4]
  rw [h4, caseFold_inside V _ hV3]
  simp [caseFoldUnquoted]

theorem parse_quotedLine (K V : Str) (hK0 : K ≠ [])
    (hK : ∀ x ∈ K, x ∉ parseTrimChars) (hKe : '=' ∉ K) (hV0 : V ≠ [])
    (hVh : ∀ x, V.head? = some x → x ∉ parseTrimChars)
    (hVl : ∀ x, V.getLast? = some x → x ∉ parseTrimChars) :
    parse (quotedLine K V) = .ok (K, V) := by
  have hmem : '=' ∈ quotedLine K V := by simp [quotedLine]
  have hq : quotedLine K V = K ++ (' ' :: '=' :: ([' ', dquote] ++ V ++ [dquote])) := by
    simp [quotedLine]
  have hpos : ∀ x ∈ K, (x != '=') = true := by
    intro x hx
    have : x ≠ '=' := fun h => hKe (h ▸ hx)
    simpa using this
  have hb : beforeFirst '=' (quotedLine K V) = [] ++ K ++ [' '] := by
    unfold beforeFirst
    rw [hq, List.takeWhile_append_of_pos hpos]
    simp [List.takeWhile]
  have ha : afterFirst '=' (quotedLine K V) = [' ', dquote] ++ V ++ [dquote] := by
    unfold afterFirst
    rw [hq, List.dropWhile_append_of_pos hpos]
    simp [List.dropWhile]
  have hkey : stripSet parseTrimChars (beforeFirst '=' (quotedLine K V)) = K := by
    rw [hb]
    apply stripSet_sandwich _ _ _ _ (by simp) (by decide) hK0
    · intro x hx
      exact hK x (List.mem_of_mem_head? hx)
    · intro x hx
      exact hK x (List.mem_of_getLast?_eq_some hx)
  have hval : stripSet parseTrimChars (afterFirst '=' (quotedLine K V)) = V := by
    rw [ha]
    exact stripSet_sandwich _ _ _ _ (by decide) (by decide) hV0 hVh hVl
  rw [parse_with_eq _ hmem, hkey, hval, if_neg]
  rintro (h | h)
  · exact hK0 h
  · exact hV0 h

theorem map_toLower_avoids (K L : Str) (hL : ∀ y ∈ L, y.toNat < 97)
    (hK : ∀ x ∈ K, x ∉ L) : ∀ x ∈ K.map Char.toLower, x ∉ L :=
  fun x hx hmem => not_mem_map_toLower K x (hL x hmem) (fun h => hK x h hmem) hx

/-! ## The claim about section scoping -/

/-- Claim C1. When `read` ends without an exception, the calls it has made on
the options tree are exactly the expected ones: every key/value or flag line
is `set` on the section of the most recent preceding header, or on the root
passed by the caller when no header precedes it; that section is always what
`getSection(name)` returned with the root as receiver, never a child of the
section that was current before.  The final current section is the one in
force after all lines. -/
theorem read_section_scoping (store : List Call) (filename : Str) (lines : List Str)
    (log : List Call) (sec : Handle)
    (h : read traceAPI store Handle.root filename lines = ((log, sec), none)) :
    log = store ++ expectedCalls filename [] lines ∧
    sec = sectionAfter lines ∧
    (∀ pre line post, lines = pre ++ line :: post →
      getNextLine line ≠ [] → '[' ∉ getNextLine line →
      ∃ key value, parse (getNextLine line) = .ok (key, value) ∧
        Call.set (sectionAfter pre) key value filename ∈ log) ∧
    (∀ pre, sectionAfter pre = Handle.root ∨
      ∃ name, sectionAfter pre = Handle.child Handle.root name) := by
  have hroot : sectionAfter [] = Handle.root := rfl
  unfold read at h
  rw [← hroot] at h
  obtain ⟨hlog, hsec⟩ := readFrom_trace filename lines store [] log sec h
  refine ⟨hlog, by simpa using hsec, ?_, ?_⟩
  · rintro pre line post rfl h0 h1
    rw [hroot, readFrom_append] at h
    rcases hpre : readFrom traceAPI Handle.root filename (store, Handle.root) pre with
      ⟨st', _ | e⟩
    · rw [hpre] at h
      simp only [readFrom] at h
      cases hl : readLine traceAPI Handle.root filename st' line with
      | error e =>
        rw [hl] at h
        simp at h
      | ok st'' =>
        unfold readLine at hl
        rw [readBuffer_entry _ _ _ _ _ h0 h1] at hl
        cases hp : parse (getNextLine line) with
        | error e =>
          rw [hp] at hl
          cases hl
        | ok kv =>
          obtain ⟨key, value⟩ := kv
          refine ⟨key, value, rfl, ?_⟩
          rw [hlog, expectedCalls_append]
          simp only [expectedCalls, expectedCallsOf, if_neg h0, if_neg h1, hp, List.nil_append]
          simp
    · rw [hpre] at h
      simp at h
  · intro pre
    unfold sectionAfter
    cases (pre.map getNextLine).reverse.find? (fun b => b.contains '[') with
    | none => exact Or.inl rfl
    | some header => exact Or.inr ⟨_, rfl⟩

/-- Witness of C1: the input `[foo]`, `a=1`, `[bar]`, `b=2` is read without
error, sets `a` in `getSection("foo")` of the root and `b` in
`getSection("bar")` of the root. -/
theorem read_section_scoping_witness :
    read traceAPI [] Handle.root "f".toList
        ["[foo]".toList, "a=1".toList, "[bar]".toList, "b=2".toList] =
      (([Call.getSection Handle.root "foo".toList,
         Call.set (Handle.child Handle.root "foo".toList) "a".toList "1".toList "f".toList,
         Call.getSection Handle.root "bar".toList,
         Call.set (Handle.child Handle.root "bar".toList) "b".toList "2".toList "f".toList],
        Handle.child Handle.root "bar".toList), none) ∧
    [Call.getSection Handle.root "foo".toList,
      Call.set (Handle.child Handle.root "foo".toList) "a".toList "1".toList "f".toList,
      Call.getSection Handle.root "bar".toList,
      Call.set (Handle.child Handle.root "bar".toList) "b".toList "2".toList "f".toList] =
      [] ++ expectedCalls "f".toList []
        ["[foo]".toList, "a=1".toList, "[bar]".toList, "b=2".toList] :=
  ⟨rfl, (read_section_scoping [] "f".toList
      ["[foo]".toList, "a=1".toList, "[bar]".toList, "b=2".toList] _ _ rfl).1⟩

/-! ## The claims about comments, errors and blank lines -/

/-- Claim C8. For every raw line, normalizing it with `getNextLine` and then
parsing it, or running the whole iteration of `read` on it, gives the same
outcome as for the line cut just before its first `#` or `;`; no quoting is
looked at, so the cut also happens inside a double-quoted value. -/
theorem comment_stripping_end_to_end {Store Ref : Type} (api : Collaborator Store Ref)
    (options : Ref) (filename : Str) (st : Store × Ref) (raw : Str) :
    getNextLine raw = getNextLine (truncateAtComment raw) ∧
    parse (getNextLine raw) = parse (getNextLine (truncateAtComment raw)) ∧
    readLine api options filename st raw =
      readLine api options filename st (truncateAtComment raw) := by
  have h := getNextLine_truncate raw
  refine ⟨h.symm, by rw [h], ?_⟩
  unfold readLine
  rw [h]

/-- Witness of C8: `a = b # comment` yields key `a` and value `b`, as does its
cut `a = b `; and in `a = "x#y"` the `#` inside the quotes cuts the value
to `x`. -/
theorem comment_stripping_end_to_end_witness :
    truncateAtComment "a = b # comment".toList = "a = b ".toList ∧
    parse (getNextLine "a = b # comment".toList) = .ok ("a".toList, "b".toList) ∧
    parse (getNextLine "a = b ".toList) = .ok ("a".toList, "b".toList) ∧
    parse (getNextLine ['a', ' ', '=', ' ', dquote, 'x', '#', 'y', dquote]) =
      .ok ("a".toList, "x".toList) :=
  ⟨rfl,
   (comment_stripping_end_to_end traceAPI Handle.root [] ([], Handle.root)
      "a = b # comment".toList).2.1.trans rfl,
   rfl,
   (comment_stripping_end_to_end traceAPI Handle.root [] ([], Handle.root)
      ['a', ' ', '=', ' ', dquote, 'x', '#', 'y', dquote]).2.1.trans rfl⟩

/-- Claim C9. `read` ends with the exception `e` and the state `st` exactly
when the input splits into lines `pre` that are all processed without error
and leave the state `st`, a line whose iteration throws `e` in that state, and
arbitrary further lines `post`.  So the store at the failure is the one built
by the lines before the first failing line, and the lines after it have no
effect. -/
theorem read_aborts_at_first_error {Store Ref : Type} (api : Collaborator Store Ref)
    (store : Store) (options : Ref) (filename : Str) (lines : List Str)
    (st : Store × Ref) (e : BoutException) :
    read api store options filename lines = (st, some e) ↔
      ∃ pre line post, lines = pre ++ line :: post ∧
        read api store options filename pre = (st, none) ∧
        readLine api options filename st line = .error e := by
  unfold read
  generalize (store, options) = st0
  constructor
  · intro h
    induction lines generalizing st0 with
    | nil => simp [readFrom] at h
    | cons l rest ih =>
      simp only [readFrom] at h
      cases hl : readLine api options filename st0 l with
      | error e' =>
        rw [hl] at h
        simp only [Prod.mk.injEq, Option.some.injEq] at h
        obtain ⟨rfl, rfl⟩ := h
        exact ⟨[], l, rest, rfl, rfl, hl⟩
      | ok st' =>
        rw [hl] at h
        obtain ⟨pre, line, post, h1, h2, h3⟩ := ih st' h
        refine ⟨l :: pre, line, post, by rw [h1]; rfl, ?_, h3⟩
        simp only [readFrom, hl]
        exact h2
  · rintro ⟨pre, line, post, rfl, h2, h3⟩
    rw [readFrom_append, h2]
    simp only [readFrom, h3]

/-- Witness of C9: in `[foo]`, `a=1`, `b=`, `c=3` the third line fails; the
calls of the first two lines are kept and `c=3` is never set. -/
theorem read_aborts_at_first_error_witness :
    read traceAPI [] Handle.root "f".toList
        ["[foo]".toList, "a=1".toList, "b=".toList, "c=3".toList] =
      (([Call.getSection Handle.root "foo".toList,
         Call.set (Handle.child Handle.root "foo".toList) "a".toList "1".toList "f".toList],
        Handle.child Handle.root "foo".toList),
       some (.emptyKeyOrValue "b=".toList)) :=
  (read_aborts_at_first_error traceAPI [] Handle.root "f".toList
      ["[foo]".toList, "a=1".toList, "b=".toList, "c=3".toList] _ _).mpr
    ⟨["[foo]".toList, "a=1".toList], "b=".toList, ["c=3".toList], rfl, rfl, rfl⟩

/-- Claim C10. A line that is empty after comment stripping and whitespace
trimming may be inserted or removed at any position of the input without
changing the result of `read`: the exception or its absence, the store, and
the current section (hence, as `post` is arbitrary, the section used for the
lines that follow). -/
theorem read_ignores_blank_line {Store Ref : Type} (api : Collaborator Store Ref)
    (store : Store) (options : Ref) (filename : Str) (pre post : List Str) (blank : Str)
    (h : trim (trimComments blank) defaultTrimChars = []) :
    read api store options filename (pre ++ blank :: post) =
      read api store options filename (pre ++ post) := by
  unfold read
  rw [readFrom_append, readFrom_append]
  rcases readFrom api options filename (store, options) pre with ⟨st', _ | e⟩
  · simp only [readFrom, readLine, getNextLine_blank blank h, readBuffer_nil]
  · rfl

/-- Witness of C10: a comment-only line between `[foo]` and `a=1` changes
nothing. -/
theorem read_ignores_blank_line_witness :
    trim (trimComments "  # note".toList) defaultTrimChars = [] ∧
    read traceAPI [] Handle.root "f".toList
        ["[foo]".toList, "  # note".toList, "a=1".toList] =
      read traceAPI [] Handle.root "f".toList ["[foo]".toList, "a=1".toList] :=
  ⟨rfl, read_ignores_blank_line traceAPI [] Handle.root "f".toList ["[foo]".toList]
    ["a=1".toList] "  # note".toList rfl⟩

/-! ## The claim about quoted values -/

/-- Claim C7. Let `K` be a non-empty key text without blank, tab, CR, LF, `=`,
`#`, `;`, `[`, single or double quote, and `V` a non-empty value text without
`#`, `;`, `[` and double quote that neither begins nor ends with blank, tab, CR
or LF.  Then `getNextLine` followed by `parse` turns the line `K = "V"` into
the key `K` in lower case and the value `V` exactly, and the iteration of
`read` sets that pair in the current section. -/
theorem quoted_value_keeps_case {Store Ref : Type} (api : Collaborator Store Ref)
    (options : Ref) (filename : Str) (st : Store × Ref) (K V : Str)
    (hK0 : K ≠ [])
    (hK : ∀ x ∈ K, x ∉ [' ', '\t', '\r', '\n', '=', '#', ';', '[', squote, dquote])
    (hV0 : V ≠ [])
    (hV : ∀ x ∈ V, x ∉ ['#', ';', '[', dquote])
    (hVh : ∀ x, V.head? = some x → x ∉ [' ', '\t', '\r', '\n'])
    (hVl : ∀ x, V.getLast? = some x → x ∉ [' ', '\t', '\r', '\n']) :
    parse (getNextLine (quotedLine K V)) = .ok (K.map Char.toLower, V) ∧
    readLine api options filename st (quotedLine K V) =
      .ok (api.set st.1 st.2 (K.map Char.toLower) V filename, st.2) := by
  have hKn : ∀ y, y ∈ [' ', '\t', '\r', '\n', '=', '#', ';', '[', squote, dquote] → y ∉ K :=
    fun y hy hmem => hK y hmem hy
  have hVn : ∀ y, y ∈ ['#', ';', '[', dquote] → y ∉ V := fun y hy hmem => hV y hmem hy
  have hnext : getNextLine (quotedLine K V) = quotedLine (K.map Char.toLower) V := by
    apply getNextLine_quotedLine K V hK0 (hKn _ (by decide)) (hKn _ (by decide))
      (hKn _ (by decide)) _ (hVn _ (by decide)) (hVn _ (by decide)) (hVn _ (by decide))
    intro x hx hmem
    exact hK x (List.mem_of_mem_head? hx) (by
      revert hmem
      simp only [defaultTrimChars, List.mem_cons, List.mem_singleton, List.not_mem_nil,
        or_false]
      tauto)
  have hlow := map_toLower_avoids K
    [' ', '\t', '\r', '\n', '=', '#', ';', '[', squote, dquote] (by decide) hK
  have hlow0 : K.map Char.toLower ≠ [] := by simpa using hK0
  have hVq : ∀ x ∈ V, x ≠ dquote := fun x hx h => hVn dquote (by decide) (h ▸ hx)
  have hparse : parse (quotedLine (K.map Char.toLower) V) = .ok (K.map Char.toLower, V) := by
    apply parse_quotedLine _ _ hlow0 _ _ hV0
    · intro x hx hmem
      have h1 := hVh x hx
      have h2 := hVq x (List.mem_of_mem_head? hx)
      revert hmem h1
      simp only [parseTrimChars, List.mem_cons, List.mem_singleton, List.not_mem_nil,
        or_false]
      tauto
    · intro x hx hmem
      have h1 := hVl x hx
      have h2 := hVq x (List.mem_of_getLast?_eq_some hx)
      revert hmem h1
      simp only [parseTrimChars, List.mem_cons, List.mem_singleton, List.not_mem_nil,
        or_false]
      tauto
    · intro x hx hmem
      apply hlow x hx
      revert hmem
      simp only [parseTrimChars, List.mem_cons, List.mem_singleton, List.not_mem_nil,
        or_false]
      tauto
    · intro hmem
      exact hlow _ hmem (by decide)
  refine ⟨by rw [hnext, hparse], ?_⟩
  unfold readLine
  rw [hnext]
  have hne : quotedLine (K.map Char.toLower) V ≠ [] := by simp [quotedLine]
  have hbr : '[' ∉ quotedLine (K.map Char.toLower) V := by
    intro hmem
    simp only [quotedLine, List.mem_append, List.mem_cons, List.mem_singleton,
      List.not_mem_nil, or_false] at hmem
    rcases hmem with ((h | h | h | h | h) | h) | h
    · exact hlow _ h (by decide)
    all_goals first | exact hVn _ (by decide) h | exact absurd h (by decide)
  rw [readBuffer_entry _ _ _ _ _ hne hbr, hparse]

/-- Witness of C7: `Type = "PETSC"` yields the key `type` and the value
`PETSC`; and the input `[solver]`, `type = "PETSC" ; backend`, `restart` sets
`type` to `PETSC` and `restart` to `TRUE` in section `solver`. -/
theorem quoted_value_keeps_case_witness :
    parse (getNextLine (quotedLine "Type".toList "PETSC".toList)) =
      .ok ("type".toList, "PETSC".toList) ∧
    read traceAPI [] Handle.root "f".toList
        ["[solver]".toList,
         "type = ".toList ++ [dquote] ++ "PETSC".toList ++ [dquote] ++ " ; backend".toList,
         "restart".toList] =
      (([Call.getSection Handle.root "solver".toList,
         Call.set (Handle.child Handle.root "solver".toList) "type".toList "PETSC".toList
           "f".toList,
         Call.set (Handle.child Handle.root "solver".toList) "restart".toList "TRUE".toList
           "f".toList],
        Handle.child Handle.root "solver".toList), none) :=
  ⟨(quoted_value_keeps_case traceAPI Handle.root [] ([], Handle.root)
      "Type".toList "PETSC".toList (by decide) (by decide) (by decide) (by decide)
      (by decide) (by decide)).1, rfl⟩

/-! ## Facts about stripping -/

theorem stripSet_split (c s : Str) :
    ∃ a z, s = a ++ stripSet c s ++ z ∧ (∀ x ∈ a, x ∈ c) ∧ (∀ x ∈ z, x ∈ c) := by
  refine ⟨s.takeWhile c.contains,
    ((s.dropWhile c.contains).reverse.takeWhile c.contains).reverse, ?_, ?_, ?_⟩
  · have h1 : (s.dropWhile c.contains) =
        stripSet c s ++ ((s.dropWhile c.contains).reverse.takeWhile c.contains).reverse := by
      unfold stripSet
      rw [← List.reverse_append, List.takeWhile_append_dropWhile, List.reverse_reverse]
    rw [List.append_assoc, ← h1, List.takeWhile_append_dropWhile]
  · intro x hx
    simpa using List.mem_takeWhile_imp hx
  · intro x hx
    rw [List.mem_reverse] at hx
    simpa using List.mem_takeWhile_imp hx

theorem stripSet_idem (c s : Str) : stripSet c (stripSet c s) = stripSet c s := by
  by_cases h : stripSet c s = []
  · rw [h]; rfl
  · exact stripSet_eq_self c _ h (stripSet_head_not_mem c s) (stripSet_getLast_not_mem c s)

/-! ## The claims about the string helpers -/

/-- Claim C15. `trimComments` returns the text before the earliest `#` or `;`:
the result is an initial segment of `s` without `#` and `;`, every initial
segment of `s` without `#` and `;` is an initial segment of the result, the
character of `s` that follows the result, if any, is `#` or `;`, and `s` is
returned unchanged when it contains neither character. -/
theorem trimComments_longest_clean_segment (s : Str) :
    trimComments s = truncateAtComment s ∧
    trimComments s <+: s ∧
    '#' ∉ trimComments s ∧ ';' ∉ trimComments s ∧
    (∀ p : Str, p <+: s → '#' ∉ p → ';' ∉ p → p <+: trimComments s) ∧
    (trimComments s ≠ s →
      ∃ ch rest, s = trimComments s ++ ch :: rest ∧ (ch = '#' ∨ ch = ';')) ∧
    ('#' ∉ s → ';' ∉ s → trimComments s = s) := by
  rw [trimComments_eq_truncate]
  unfold truncateAtComment
  refine ⟨rfl, ( List.takeWhile_prefix _), ?_, ?_, ?_, ?_, ?_⟩
  · intro h
    have := List.mem_takeWhile_imp h
    simp at this
  · intro h
    have := List.mem_takeWhile_imp h
    simp at this
  · rintro p ⟨t, rfl⟩ h1 h2
    rw [List.takeWhile_append_of_pos]
    · exact ( List.prefix_append _ _)
    · intro x hx
      have e1 : x ≠ '#' := fun e => h1 (e ▸ hx)
      have e2 : x ≠ ';' := fun e => h2 (e ▸ hx)
      simp [e1, e2]
  · intro hne
    have hsplit := List.takeWhile_append_dropWhile (fun x => x != '#' && x != ';') s
    cases hd : s.dropWhile (fun x => x != '#' && x != ';') with
    | nil =>
      rw [hd, List.append_nil] at hsplit
      exact absurd hsplit hne
    | cons ch rest =>
      refine ⟨ch, rest, by rw [← hd, hsplit], ?_⟩
      have hnot := List.head?_dropWhile_not (fun x => x != '#' && x != ';') s
      rw [hd] at hnot
      simp only [List.head?_cons, Bool.and_eq_false_imp, bne_eq_false_iff_eq,
        bne_iff_ne, ne_eq] at hnot
      by_cases e1 : ch = '#'
      · exact Or.inl e1
      · right
        by_contra e2
        have := hnot
        simp [e1, e2] at this
  · intro h1 h2
    rw [List.takeWhile_eq_self_iff]
    intro x hx
    have e1 : x ≠ '#' := fun e => h1 (e ▸ hx)
    have e2 : x ≠ ';' := fun e => h2 (e ▸ hx)
    simp [e1, e2]

/-- Witness of C15: `a = b ; c # d` is cut before the `;`, and `a = b` is
returned as it is. -/
theorem trimComments_longest_clean_segment_witness :
    trimComments "a = b ; c # d".toList = "a = b ".toList ∧
    trimComments "a = b".toList = "a = b".toList :=
  ⟨rfl, (trimComments_longest_clean_segment "a = b".toList).2.2.2.2.2.2
    (by decide) (by decide)⟩

/-- Claim C16. `trim(s, c)` is `s` without its longest prefix and its longest
suffix of characters of `c`.  It is empty when `s` is empty or lies wholly in
`c`; otherwise `s` is the result between a run of characters of `c` before it
and one after it, the result is non-empty and its first and last characters are
not in `c`, so its interior is that of `s`, members of `c` included. -/
theorem trim_two_sided (s c : Str) :
    trim s c = stripSet c s ∧
    ((∀ x ∈ s, x ∈ c) → trim s c = []) ∧
    (¬ (∀ x ∈ s, x ∈ c) →
      trim s c ≠ [] ∧
      (∃ a z, s = a ++ trim s c ++ z ∧ (∀ x ∈ a, x ∈ c) ∧ (∀ x ∈ z, x ∈ c)) ∧
      (∀ x, (trim s c).head? = some x → x ∉ c) ∧
      (∀ x, (trim s c).getLast? = some x → x ∉ c)) := by
  rw [trim_eq_stripSet]
  refine ⟨rfl, (stripSet_eq_nil_iff c s).mpr, ?_⟩
  intro h
  exact ⟨fun hnil => h ((stripSet_eq_nil_iff c s).mp hnil), stripSet_split c s,
    stripSet_head_not_mem c s, stripSet_getLast_not_mem c s⟩

/-- Witness of C16: trimming blanks and double quotes from ` "a "b" ` keeps the
interior quote, and a string of blanks becomes empty. -/
theorem trim_two_sided_witness :
    trim [' ', dquote, 'a', ' ', dquote, 'b', dquote, ' '] parseTrimChars =
      ['a', ' ', dquote, 'b'] ∧
    trim "   ".toList defaultTrimChars = [] :=
  ⟨rfl, (trim_two_sided "   ".toList defaultTrimChars).2.1 (by decide)⟩

/-- Claim C17. `trim` and `trimComments` are idempotent. -/
theorem trim_helpers_idempotent (s c : Str) :
    trim (trim s c) c = trim s c ∧ trimComments (trimComments s) = trimComments s := by
  refine ⟨?_, ?_⟩
  · rw [trim_eq_stripSet, trim_eq_stripSet, stripSet_idem]
  · rw [trimComments_eq_truncate, trimComments_eq_truncate]
    unfold truncateAtComment
    rw [List.takeWhile_idem]

/-! ## Facts about normalizing twice -/

theorem toLower_of_ge (y : Char) (h : 97 ≤ y.toNat) : y.toLower = y := by
  unfold Char.toLower
  have : ¬ (y.toNat ≥ 65 ∧ y.toNat ≤ 90) := by omega
  simp only [this, if_false]

theorem toLower_idem (x : Char) : x.toLower.toLower = x.toLower := by
  rcases toLower_eq_self_or_ge x with h | h
  · rw [h, h]
  · exact toLower_of_ge _ h

theorem toLower_eq_low (x y : Char) (hy : y.toNat < 97) (h : x.toLower = y) : x = y := by
  rcases toLower_eq_self_or_ge x with h1 | h1
  · rw [← h1, h]
  · rw [h] at h1
    omega

theorem caseFold_idem (b : Bool) (s : Str) :
    caseFoldUnquoted b (caseFoldUnquoted b s) = caseFoldUnquoted b s := by
  induction s generalizing b with
  | nil => rfl
  | cons x xs ih =>
    by_cases hx : x = dquote
    · simp [caseFoldUnquoted, hx, ih]
    · cases b with
      | true => simp [caseFoldUnquoted, hx, ih]
      | false =>
        have hl : x.toLower ≠ dquote := fun h => hx (toLower_eq_low x dquote (by decide) h)
        simp [caseFoldUnquoted, hx, hl, ih, toLower_idem]

theorem caseFold_mem (b : Bool) (s : Str) (y : Char) (h : y ∈ caseFoldUnquoted b s) :
    ∃ x ∈ s, y = x ∨ y = x.toLower := by
  induction s generalizing b with
  | nil => simp [caseFoldUnquoted] at h
  | cons x xs ih =>
    have hcases : y = x ∨ y = x.toLower ∨ ∃ b', y ∈ caseFoldUnquoted b' xs := by
      unfold caseFoldUnquoted at h
      split at h
      · rcases List.mem_cons.mp h with h | h
        · exact Or.inl h
        · exact Or.inr (Or.inr ⟨_, h⟩)
      · split at h
        · rcases List.mem_cons.mp h with h | h
          · exact Or.inl h
          · exact Or.inr (Or.inr ⟨_, h⟩)
        · rcases List.mem_cons.mp h with h | h
          · exact Or.inr (Or.inl h)
          · exact Or.inr (Or.inr ⟨_, h⟩)
    rcases hcases with h | h | ⟨b', h⟩
    · exact ⟨x, by simp, Or.inl h⟩
    · exact ⟨x, by simp, Or.inr h⟩
    · obtain ⟨x', hx', hy⟩ := ih b' h
      exact ⟨x', List.mem_cons_of_mem _ hx', hy⟩

theorem caseFold_head (b : Bool) (s : Str) (y : Char)
    (h : (caseFoldUnquoted b s).head? = some y) :
    ∃ x, s.head? = some x ∧ (y = x ∨ y = x.toLower) := by
  cases s with
  | nil => simp [caseFoldUnquoted] at h
  | cons x xs =>
    refine ⟨x, rfl, ?_⟩
    unfold caseFoldUnquoted at h
    split at h
    · left; simpa using h.symm
    · split at h
      · left; simpa using h.symm
      · right; simpa using h.symm

theorem caseFold_concat (b : Bool) (s : Str) (x : Char) :
    ∃ y, caseFoldUnquoted b (s ++ [x]) = caseFoldUnquoted b s ++ [y] ∧
      (y = x ∨ y = x.toLower) := by
  induction s generalizing b with
  | nil =>
    by_cases hx : x = dquote
    · exact ⟨x, by simp [caseFoldUnquoted, hx], Or.inl rfl⟩
    · cases b with
      | true => exact ⟨x, by simp [caseFoldUnquoted, hx], Or.inl rfl⟩
      | false => exact ⟨x.toLower, by simp [caseFoldUnquoted, hx], Or.inr rfl⟩
  | cons z zs ih =>
    by_cases hz : z = dquote
    · obtain ⟨y, h1, h2⟩ := ih (!b)
      exact ⟨y, by simp [caseFoldUnquoted, hz, h1], h2⟩
    · obtain ⟨y, h1, h2⟩ := ih b
      cases b with
      | true => exact ⟨y, by simp [caseFoldUnquoted, hz, h1], h2⟩
      | false => exact ⟨y, by simp [caseFoldUnquoted, hz, h1], h2⟩

theorem caseFold_getLast (b : Bool) (s : Str) (y : Char)
    (h : (caseFoldUnquoted b s).getLast? = some y) :
    ∃ x, s.getLast? = some x ∧ (y = x ∨ y = x.toLower) := by
  rcases List.eq_nil_or_concat s with hs | ⟨ys, x, hs⟩
  · subst hs
    simp [caseFoldUnquoted] at h
  · rw [List.concat_eq_append] at hs
    subst hs
    obtain ⟨y', h1, h2⟩ := caseFold_concat b ys x
    rw [h1, List.getLast?_concat] at h
    injection h with h
    subst h
    exact ⟨x, List.getLast?_concat _, h2⟩

theorem caseFold_eq_nil (b : Bool) (s : Str) (h : caseFoldUnquoted b s = []) : s = [] := by
  cases s with
  | nil => rfl
  | cons x xs =>
    unfold caseFoldUnquoted at h
    split at h
    · cases h
    · split at h <;> cases h

theorem getNextLine_twice (raw : Str) : getNextLine (getNextLine raw) = getNextLine raw := by
  have hlow : ∀ y ∈ [' ', '\t', '\r', '\n', '#', ';'], y.toNat < 97 := by decide
  have hback : ∀ x y : Char, y ∈ [' ', '\t', '\r', '\n', '#', ';'] →
      (y = x ∨ y = x.toLower) → y = x := by
    intro x y hy h
    rcases h with h | h
    · exact h
    · exact (toLower_eq_low x y (hlow y hy) h.symm).symm
  generalize ht : trim (trimComments raw) defaultTrimChars = t
  have hn : getNextLine raw = caseFoldUnquoted false t := by
    rw [← ht]; rfl
  have htc : ∀ x ∈ t, x ≠ '#' ∧ x ≠ ';' := by
    intro x hx
    rw [← ht, trim_eq_stripSet, trimComments_eq_truncate] at hx
    obtain ⟨a, z, hsplit, _, _⟩ := stripSet_split defaultTrimChars (truncateAtComment raw)
    have hmem : x ∈ truncateAtComment raw := by
      rw [hsplit]; simp [hx]
    have := List.mem_takeWhile_imp hmem
    simpa using this
  have h1 : trimComments (caseFoldUnquoted false t) = caseFoldUnquoted false t := by
    rw [trimComments_eq_truncate]
    unfold truncateAtComment
    rw [List.takeWhile_eq_self_iff]
    intro y hy
    obtain ⟨x, hx, hxy⟩ := caseFold_mem false t y hy
    have e1 : y ≠ '#' := by
      rintro rfl
      have := hback x '#' (by decide) hxy
      exact (htc x hx).1 this.symm
    have e2 : y ≠ ';' := by
      rintro rfl
      have := hback x ';' (by decide) hxy
      exact (htc x hx).2 this.symm
    simp [e1, e2]
  have h2 : trim (caseFoldUnquoted false t) defaultTrimChars = caseFoldUnquoted false t := by
    rw [trim_eq_stripSet]
    by_cases hnil : caseFoldUnquoted false t = []
    · rw [hnil]; rfl
    · have hsub : ∀ y ∈ defaultTrimChars, y ∈ [' ', '\t', '\r', '\n', '#', ';'] := by decide
      apply stripSet_eq_self _ _ hnil
      · intro y hy hmem
        obtain ⟨x, hx, hxy⟩ := caseFold_head false t y hy
        have := hback x y (hsub y hmem) hxy
        subst this
        rw [← ht, trim_eq_stripSet] at hx
        exact stripSet_head_not_mem _ _ _ hx hmem
      · intro y hy hmem
        obtain ⟨x, hx, hxy⟩ := caseFold_getLast false t y hy
        have := hback x y (hsub y hmem) hxy
        subst this
        rw [← ht, trim_eq_stripSet] at hx
        exact stripSet_getLast_not_mem _ _ _ hx hmem
  rw [hn]
  show lowercasequote (trim (trimComments (caseFoldUnquoted false t)) defaultTrimChars) = _
  rw [h1, h2]
  exact caseFold_idem false t

/-! ## The claim about normalizing twice -/

/-- Claim C12. Normalizing an already normalized line changes nothing: for
every raw line, `getNextLine` applied to the result of `getNextLine` returns
that result. -/
theorem getNextLine_idempotent (raw : Str) :
    getNextLine (getNextLine raw) = getNextLine raw :=
  getNextLine_twice raw

/-! ## Facts about the recorded calls -/

theorem readLine_call (f line : Str) (log0 : List Call) (s0 : Handle)
    (st' : List Call × Handle)
    (h : readLine traceAPI Handle.root f (log0, s0) line = .ok st') :
    (st' = (log0, s0) ∧ getNextLine line = []) ∨
    (st' = (log0 ++ [Call.getSection Handle.root (stripSet brackets (getNextLine line))],
        Handle.child Handle.root (stripSet brackets (getNextLine line))) ∧
      '[' ∈ getNextLine line ∧ ']' ∈ getNextLine line ∧
      stripSet brackets (getNextLine line) ≠ []) ∨
    (∃ k v, st' = (log0 ++ [Call.set s0 k v f], s0) ∧ getNextLine line ≠ [] ∧
      '[' ∉ getNextLine line ∧ parse (getNextLine line) = .ok (k, v)) := by
  unfold readLine at h
  by_cases h0 : getNextLine line = []
  · rw [h0, readBuffer_nil] at h
    injection h with h
    exact Or.inl ⟨h.symm, h0⟩
  · by_cases h1 : '[' ∈ getNextLine line
    · by_cases h2 : ']' ∈ getNextLine line
      · by_cases h3 : stripSet brackets (getNextLine line) = []
        · rw [readBuffer_missingSectionName _ _ _ _ _ h1 h2 h3] at h
          cases h
        · rw [readBuffer_section _ _ _ _ _ h1 h2 h3] at h
          injection h with h
          exact Or.inr (Or.inl ⟨h.symm, h1, h2, h3⟩)
      · rw [readBuffer_missingBracket _ _ _ _ _ h1 h2] at h
        cases h
    · rw [readBuffer_entry _ _ _ _ _ h0 h1] at h
      cases hp : parse (getNextLine line) with
      | error e =>
        rw [hp] at h
        cases h
      | ok kv =>
        obtain ⟨k, v⟩ := kv
        rw [hp] at h
        injection h with h
        exact Or.inr (Or.inr ⟨k, v, h.symm, h0, h1, rfl⟩)

theorem readFrom_calls (f : Str) (lines : List Str) (log0 : List Call) (s0 : Handle)
    (log : List Call) (sec : Handle) (res : Option BoutException)
    (h : readFrom traceAPI Handle.root f (log0, s0) lines = ((log, sec), res)) :
    ∃ new, log = log0 ++ new ∧ ∀ c ∈ new, ∃ line ∈ lines,
      (c = Call.getSection Handle.root (stripSet brackets (getNextLine line)) ∧
        '[' ∈ getNextLine line) ∨
      (∃ r k v, c = Call.set r k v f ∧ getNextLine line ≠ [] ∧
        '[' ∉ getNextLine line ∧ parse (getNextLine line) = .ok (k, v)) := by
  induction lines generalizing log0 s0 with
  | nil =>
    simp only [readFrom, Prod.mk.injEq] at h
    obtain ⟨⟨rfl, _⟩, _⟩ := h
    exact ⟨[], by simp, by simp⟩
  | cons line rest ih =>
    simp only [readFrom] at h
    cases hl : readLine traceAPI Handle.root f (log0, s0) line with
    | error e =>
      rw [hl] at h
      simp only [Prod.mk.injEq] at h
      obtain ⟨⟨rfl, _⟩, _⟩ := h
      exact ⟨[], by simp, by simp⟩
    | ok st' =>
      rw [hl] at h
      rcases readLine_call f line log0 s0 st' hl with
        ⟨rfl, _⟩ | ⟨rfl, h1, _, _⟩ | ⟨k, v, rfl, h0, h1, hp⟩
      · obtain ⟨new, hnew, hall⟩ := ih _ _ h
        refine ⟨new, hnew, ?_⟩
        intro c hc
        obtain ⟨l, hl', hc'⟩ := hall c hc
        exact ⟨l, List.mem_cons_of_mem _ hl', hc'⟩
      · obtain ⟨new, hnew, hall⟩ := ih _ _ h
        refine ⟨Call.getSection Handle.root (stripSet brackets (getNextLine line)) :: new, by rw [hnew]; simp, ?_⟩
        intro c hc
        rcases List.mem_cons.mp hc with hc | hc
        · exact ⟨line, by simp, Or.inl ⟨hc, h1⟩⟩
        · obtain ⟨l, hl', hc'⟩ := hall c hc
          exact ⟨l, List.mem_cons_of_mem _ hl', hc'⟩
      · obtain ⟨new, hnew, hall⟩ := ih _ _ h
        refine ⟨Call.set s0 k v f :: new, by rw [hnew]; simp, ?_⟩
        intro c hc
        rcases List.mem_cons.mp hc with hc | hc
        · exact ⟨line, by simp, Or.inr ⟨s0, k, v, hc, h0, h1, hp⟩⟩
        · obtain ⟨l, hl', hc'⟩ := hall c hc
          exact ⟨l, List.mem_cons_of_mem _ hl', hc'⟩

theorem entryLines_cons (line : Str) (rest : List Str) :
    entryLines (line :: rest) =
      if getNextLine line ≠ [] ∧ '[' ∉ getNextLine line then
        getNextLine line :: entryLines rest
      else entryLines rest := by
  unfold entryLines
  rw [List.map_cons, List.filter_cons]
  by_cases h0 : getNextLine line = []
  · simp [h0]
  · by_cases h1 : '[' ∈ getNextLine line
    · simp [h0, h1]
    · simp [h0, h1]

theorem readFrom_sets (f : Str) (lines : List Str) (log0 : List Call) (s0 : Handle)
    (log : List Call) (sec : Handle)
    (h : readFrom traceAPI Handle.root f (log0, s0) lines = ((log, sec), none)) :
    ∃ new, log = log0 ++ new ∧
      (new.filterMap Call.entryOf).map
          (fun e => (Except.ok (e.1, e.2.1) : Except BoutException (Str × Str))) =
        (entryLines lines).map parse := by
  induction lines generalizing log0 s0 with
  | nil =>
    simp only [readFrom, Prod.mk.injEq] at h
    obtain ⟨⟨rfl, _⟩, _⟩ := h
    exact ⟨[], by simp, by simp [entryLines]⟩
  | cons line rest ih =>
    simp only [readFrom] at h
    cases hl : readLine traceAPI Handle.root f (log0, s0) line with
    | error e =>
      rw [hl] at h
      simp at h
    | ok st' =>
      rw [hl] at h
      rw [entryLines_cons]
      rcases readLine_call f line log0 s0 st' hl with
        ⟨rfl, h0⟩ | ⟨rfl, h1, _, _⟩ | ⟨k, v, rfl, h0, h1, hp⟩
      · obtain ⟨new, hnew, hall⟩ := ih _ _ h
        exact ⟨new, hnew, by rw [if_neg (by simp [h0])]; exact hall⟩
      · obtain ⟨new, hnew, hall⟩ := ih _ _ h
        refine ⟨Call.getSection Handle.root (stripSet brackets (getNextLine line)) :: new, by rw [hnew]; simp, ?_⟩
        rw [if_neg (by simp [h1])]
        simpa [Call.entryOf] using hall
      · obtain ⟨new, hnew, hall⟩ := ih _ _ h
        refine ⟨Call.set s0 k v f :: new, by rw [hnew]; simp, ?_⟩
        rw [if_pos ⟨h0, h1⟩]
        simp only [List.filterMap_cons, Call.entryOf, List.map_cons, hp, hall]

theorem unmatchedOpen_mem (b : Str) (h : unmatchedOpen b = true) : '[' ∈ b := by
  induction b with
  | nil => simp [unmatchedOpen] at h
  | cons x xs ih =>
    simp only [unmatchedOpen, Bool.or_eq_true, Bool.and_eq_true, beq_iff_eq] at h
    rcases h with ⟨h, _⟩ | h
    · simp [h]
    · exact List.mem_cons_of_mem _ (ih h)

theorem parse_ok_shape (b k v : Str) (hb : b ≠ []) (h : parse b = .ok (k, v)) :
    k ≠ [] ∧ v ≠ [] ∧
    ('=' ∈ b → '=' ∉ k ∧
      (∀ x, k.head? = some x → x ∉ parseTrimChars) ∧
      (∀ x, k.getLast? = some x → x ∉ parseTrimChars) ∧
      (∀ x, v.head? = some x → x ∉ parseTrimChars) ∧
      (∀ x, v.getLast? = some x → x ∉ parseTrimChars)) := by
  by_cases heq : '=' ∈ b
  · rw [parse_with_eq b heq] at h
    by_cases hc : stripSet parseTrimChars (beforeFirst '=' b) = [] ∨
        stripSet parseTrimChars (afterFirst '=' b) = []
    · rw [if_pos hc] at h
      cases h
    · rw [if_neg hc] at h
      injection h with h
      injection h with hk hv
      subst hk hv
      refine ⟨fun e => hc (Or.inl e), fun e => hc (Or.inr e), fun _ => ⟨?_, ?_, ?_, ?_, ?_⟩⟩
      · intro hmem
        obtain ⟨a, z, hsplit, _, _⟩ := stripSet_split parseTrimChars (beforeFirst '=' b)
        have hin : '=' ∈ beforeFirst '=' b := by
          rw [hsplit]; simp [hmem]
        have := List.mem_takeWhile_imp hin
        simp at this
      · exact stripSet_head_not_mem _ _
      · exact stripSet_getLast_not_mem _ _
      · exact stripSet_head_not_mem _ _
      · exact stripSet_getLast_not_mem _ _
  · rw [parse_without_eq b heq] at h
    injection h with h
    injection h with hk hv
    subst hk hv
    exact ⟨hb, by simp, fun e => absurd e heq⟩

/-! ## The claims about the calls made by `read` -/

/-- Claim C11. Every `set` that `read(options, filename)` performs, whether the
read succeeds or fails, passes `filename` as origin.  On a successful read the
`set` calls, in the order they were made, are one for each line whose
normalized form is non-empty and without `[`, in input order, each with the key
and value parsed from its line; so a later line for the same key comes after
an earlier one. -/
theorem read_provenance (store : List Call) (filename : Str) (lines : List Str)
    (log : List Call) (sec : Handle) (result : Option BoutException)
    (h : read traceAPI store Handle.root filename lines = ((log, sec), result)) :
    ∃ new, log = store ++ new ∧
      (∀ r k v s, Call.set r k v s ∈ new → s = filename) ∧
      (result = none →
        (new.filterMap Call.entryOf).map
            (fun e => (Except.ok (e.1, e.2.1) : Except BoutException (Str × Str))) =
          (entryLines lines).map parse ∧
        (new.filterMap Call.entryOf).length = (entryLines lines).length) := by
  unfold read at h
  obtain ⟨new, hnew, hall⟩ := readFrom_calls filename lines store Handle.root log sec result h
  refine ⟨new, hnew, ?_, ?_⟩
  · intro r k v s hmem
    obtain ⟨line, _, hc⟩ := hall _ hmem
    rcases hc with ⟨hc, _⟩ | ⟨r', k', v', hc, _⟩
    · cases hc
    · injection hc with _ _ _ hs
  · intro hres
    subst hres
    obtain ⟨new', hnew', hsets⟩ := readFrom_sets filename lines store Handle.root log sec h
    have : new = new' := List.append_cancel_left (hnew.symm.trans hnew')
    subst this
    refine ⟨hsets, ?_⟩
    have := congrArg List.length hsets
    simpa using this

/-- Witness of C11: `[s]`, `a=1`, blank, `a=2` gives two `set` calls with the
file name as origin, the one for `a=2` last. -/
theorem read_provenance_witness :
    read traceAPI [] Handle.root "bout.inp".toList
        ["[s]".toList, "a=1".toList, [], "a=2".toList] =
      (([Call.getSection Handle.root "s".toList,
         Call.set (Handle.child Handle.root "s".toList) "a".toList "1".toList
           "bout.inp".toList,
         Call.set (Handle.child Handle.root "s".toList) "a".toList "2".toList
           "bout.inp".toList],
        Handle.child Handle.root "s".toList), none) ∧
    ∃ new,
      [Call.getSection Handle.root "s".toList,
        Call.set (Handle.child Handle.root "s".toList) "a".toList "1".toList
          "bout.inp".toList,
        Call.set (Handle.child Handle.root "s".toList) "a".toList "2".toList
          "bout.inp".toList] = [] ++ new ∧
      (∀ r k v s, Call.set r k v s ∈ new → s = "bout.inp".toList) ∧
      ((none : Option BoutException) = none →
        (new.filterMap Call.entryOf).map
            (fun e => (Except.ok (e.1, e.2.1) : Except BoutException (Str × Str))) =
          (entryLines ["[s]".toList, "a=1".toList, [], "a=2".toList]).map parse ∧
        (new.filterMap Call.entryOf).length =
          (entryLines ["[s]".toList, "a=1".toList, [], "a=2".toList]).length) :=
  ⟨rfl, read_provenance [] "bout.inp".toList ["[s]".toList, "a=1".toList, [], "a=2".toList]
    _ _ _ rfl⟩

/-- Claim C18. For every input and every `set` that `read` performs, the key
and the value are non-empty and are those parsed from a line of the input;
when that line contains `=`, the key contains no `=` and neither the key nor
the value begins or ends with space, tab, CR, LF or double quote. -/
theorem stored_entries_trimmed (store : List Call) (filename : Str) (lines : List Str)
    (log : List Call) (sec : Handle) (result : Option BoutException)
    (h : read traceAPI store Handle.root filename lines = ((log, sec), result)) :
    ∃ new, log = store ++ new ∧
      ∀ r k v s, Call.set r k v s ∈ new →
        k ≠ [] ∧ v ≠ [] ∧
        ∃ line ∈ lines, parse (getNextLine line) = .ok (k, v) ∧
          ('=' ∈ getNextLine line → '=' ∉ k ∧
            (∀ x, k.head? = some x → x ∉ parseTrimChars) ∧
            (∀ x, k.getLast? = some x → x ∉ parseTrimChars) ∧
            (∀ x, v.head? = some x → x ∉ parseTrimChars) ∧
            (∀ x, v.getLast? = some x → x ∉ parseTrimChars)) := by
  unfold read at h
  obtain ⟨new, hnew, hall⟩ := readFrom_calls filename lines store Handle.root log sec result h
  refine ⟨new, hnew, ?_⟩
  intro r k v s hmem
  obtain ⟨line, hline, hc⟩ := hall _ hmem
  rcases hc with ⟨hc, _⟩ | ⟨r', k', v', hc, h0, _, hp⟩
  · cases hc
  · injection hc with _ hk hv _
    subst hk hv
    obtain ⟨h1, h2, h3⟩ := parse_ok_shape _ _ _ h0 hp
    exact ⟨h1, h2, line, hline, hp, h3⟩

/-- Witness of C18: the line `a = " x "` stores the value `x`, the blanks
inside the quotes being removed with the quotes. -/
theorem stored_entries_trimmed_witness :
    read traceAPI [] Handle.root "f".toList
        [['a', ' ', '=', ' ', dquote, ' ', 'x', ' ', dquote]] =
      (([Call.set Handle.root "a".toList "x".toList "f".toList], Handle.root), none) ∧
    ∃ new, [Call.set Handle.root "a".toList "x".toList "f".toList] = [] ++ new ∧
      ∀ r k v s, Call.set r k v s ∈ new →
        k ≠ [] ∧ v ≠ [] ∧
        ∃ line ∈ [['a', ' ', '=', ' ', dquote, ' ', 'x', ' ', dquote]],
          parse (getNextLine line) = .ok (k, v) ∧
          ('=' ∈ getNextLine line → '=' ∉ k ∧
            (∀ x, k.head? = some x → x ∉ parseTrimChars) ∧
            (∀ x, k.getLast? = some x → x ∉ parseTrimChars) ∧
            (∀ x, v.head? = some x → x ∉ parseTrimChars) ∧
            (∀ x, v.getLast? = some x → x ∉ parseTrimChars)) :=
  ⟨rfl, stored_entries_trimmed [] "f".toList
    [['a', ' ', '=', ' ', dquote, ' ', 'x', ' ', dquote]] _ _ _ rfl⟩

/-! ## The claims about bracket lines -/

/-- Counterexample to C13: in the line `]a[` the `[` has no `]` after it, yet
`read` does not throw "Missing ]"; it takes the line as the header of
section `a`. -/
theorem unmatched_bracket_accepted :
    unmatchedOpen "]a[".toList = true ∧
    getNextLine "]a[".toList = "]a[".toList ∧
    readBuffer traceAPI Handle.root "f".toList ([], Handle.root) "]a[".toList =
      .ok ([Call.getSection Handle.root "a".toList], Handle.child Handle.root "a".toList) ∧
    read traceAPI [] Handle.root "f".toList ["]a[".toList] =
      (([Call.getSection Handle.root "a".toList], Handle.child Handle.root "a".toList),
        none) :=
  ⟨rfl, rfl, rfl, rfl⟩

/-- Claim C13, amended. For a line with a `[` that has no `]` after it: when
the line contains no `]` at all, the iteration of `read` throws "Missing ]"
with the file name and the line; when a `]` occurs somewhere (then before that
`[`), "Missing ]" is not thrown, and the line is taken as a section header
named by the line without its leading and trailing brackets, or "Missing
section name" is thrown when nothing but brackets is left. -/
theorem unmatched_bracket_amended {Store Ref : Type} (api : Collaborator Store Ref)
    (options : Ref) (filename : Str) (st : Store × Ref) (buffer : Str)
    (h : unmatchedOpen buffer = true) :
    (']' ∉ buffer →
      readBuffer api options filename st buffer = .error (.missingBracket filename buffer)) ∧
    (']' ∈ buffer →
      (stripSet brackets buffer ≠ [] ∧
        readBuffer api options filename st buffer =
          .ok (api.getSection st.1 options (stripSet brackets buffer))) ∨
      (stripSet brackets buffer = [] ∧
        readBuffer api options filename st buffer =
          .error (.missingSectionName filename []))) := by
  have h1 := unmatchedOpen_mem buffer h
  refine ⟨fun h2 => readBuffer_missingBracket api options filename st buffer h1 h2, ?_⟩
  intro h2
  by_cases h3 : stripSet brackets buffer = []
  · exact Or.inr ⟨h3, readBuffer_missingSectionName api options filename st buffer h1 h2 h3⟩
  · exact Or.inl ⟨h3, readBuffer_section api options filename st buffer h1 h2 h3⟩

/-- Witness of the amended C13: `[foo` has an unmatched `[` and no `]`, and
fails with "Missing ]". -/
theorem unmatched_bracket_amended_witness :
    unmatchedOpen "[foo".toList = true ∧
    readBuffer traceAPI Handle.root "f".toList ([], Handle.root) "[foo".toList =
      .error (.missingBracket "f".toList "[foo".toList) :=
  ⟨rfl, (unmatched_bracket_amended traceAPI Handle.root "f".toList ([], Handle.root)
    "[foo".toList rfl).1 (by decide)⟩

/-- Claim C14, as the code behaves. Reading the single line `[]` throws
"Missing section name" with the file name and the empty string as line, not
the line `[]`: the source trims `buffer` in place before it passes it to the
exception.  In general the line carried by this exception is always empty,
while the offending line never is. -/
theorem missing_section_name_payload :
    read traceAPI [] Handle.root "bout.inp".toList ["[]".toList] =
      (([], Handle.root), some (.missingSectionName "bout.inp".toList [])) ∧
    (∀ (filename buffer fn ln : Str) (st : List Call × Handle),
      readBuffer traceAPI Handle.root filename st buffer =
        .error (.missingSectionName fn ln) →
      fn = filename ∧ ln = [] ∧ buffer ≠ []) := by
  refine ⟨rfl, ?_⟩
  intro filename buffer fn ln st h
  rcases readBuffer_error_cases traceAPI Handle.root filename st buffer _ h with
    ⟨_, _, h3⟩ | ⟨h1, _, _, h3⟩ | ⟨_, _, h3⟩
  · cases h3
  · injection h3 with h4 h5
    refine ⟨h4, h5, ?_⟩
    rintro rfl
    simp at h1
  · cases (parse_error_shape buffer _ h3).1

/-- Claim C19. A line that contains `[` never becomes an entry: its iteration
throws "Missing ]" or "Missing section name", or makes `getSection` of the
line without its leading and trailing brackets, called on the root, the
current section; on the recorded calls a successful iteration adds that one
`getSection` call and no `set`.  A line with `]` and without `[` is parsed
as a key/value or flag line and set in the current section. -/
theorem bracket_line_never_entry {Store Ref : Type} (api : Collaborator Store Ref)
    (options : Ref) (filename : Str) (st : Store × Ref) (log : List Call) (sec : Handle)
    (buffer : Str) :
    ('[' ∈ buffer →
      (readBuffer api options filename st buffer =
          .error (.missingBracket filename buffer) ∨
        readBuffer api options filename st buffer =
          .error (.missingSectionName filename []) ∨
        readBuffer api options filename st buffer =
          .ok (api.getSection st.1 options (stripSet brackets buffer))) ∧
      (∀ st', readBuffer traceAPI Handle.root filename (log, sec) buffer = .ok st' →
        st' = (log ++ [Call.getSection Handle.root (stripSet brackets buffer)],
          Handle.child Handle.root (stripSet brackets buffer)))) ∧
    (']' ∈ buffer → '[' ∉ buffer →
      readBuffer api options filename st buffer =
        match parse buffer with
        | .error e => .error e
        | .ok (key, value) => .ok (api.set st.1 st.2 key value filename, st.2)) := by
  refine ⟨?_, ?_⟩
  · intro h1
    by_cases h2 : ']' ∈ buffer
    · by_cases h3 : stripSet brackets buffer = []
      · refine ⟨Or.inr (Or.inl (readBuffer_missingSectionName _ _ _ _ _ h1 h2 h3)), ?_⟩
        intro st' h
        rw [readBuffer_missingSectionName _ _ _ _ _ h1 h2 h3] at h
        cases h
      · refine ⟨Or.inr (Or.inr (readBuffer_section _ _ _ _ _ h1 h2 h3)), ?_⟩
        intro st' h
        rw [readBuffer_section _ _ _ _ _ h1 h2 h3] at h
        injection h with h
        exact h.symm
    · refine ⟨Or.inl (readBuffer_missingBracket _ _ _ _ _ h1 h2), ?_⟩
      intro st' h
      rw [readBuffer_missingBracket _ _ _ _ _ h1 h2] at h
      cases h
  · intro h2 h1
    have h0 : buffer ≠ [] := by
      rintro rfl
      simp at h2
    exact readBuffer_entry api options filename st buffer h0 h1

/-- Witness of C19: `a = b[1]` switches to the section named `a = b[1`, and
`a]` is set as a flag. -/
theorem bracket_line_never_entry_witness :
    readBuffer traceAPI Handle.root "f".toList ([], Handle.root) "a = b[1]".toList =
      .ok ([Call.getSection Handle.root "a = b[1".toList],
        Handle.child Handle.root "a = b[1".toList) ∧
    ([Call.getSection Handle.root "a = b[1".toList],
        Handle.child Handle.root "a = b[1".toList) =
      ([] ++ [Call.getSection Handle.root (stripSet brackets "a = b[1]".toList)],
        Handle.child Handle.root (stripSet brackets "a = b[1]".toList)) ∧
    readBuffer traceAPI Handle.root "f".toList ([], Handle.root) "a]".toList =
      .ok ([Call.set Handle.root "a]".toList "TRUE".toList "f".toList], Handle.root) :=
  ⟨rfl,
   ((bracket_line_never_entry traceAPI Handle.root "f".toList ([], Handle.root) []
      Handle.root "a = b[1]".toList).1 (by decide)).2 _ rfl,
   ((bracket_line_never_entry traceAPI Handle.root "f".toList ([], Handle.root) []
      Handle.root "a]".toList).2 (by decide) (by decide)).trans rfl⟩

end OptionINI
